import Mathlib

/-!
Verification of the debugger/stepping subsystem of the embedded JavaScript
engine (`src/debug/debug.cc` of the repository).  The development shallowly
embeds the break-location iterator, the bytecode patching operations, the
stepping state machine (`Debug::Break`, `Debug::PrepareStep`), breakpoint
condition checking, the DebugInfo lifecycle and the debug-scope nesting
discipline, and proves the testable properties stated in the specification.
-/

namespace V8

/-- Interpreter bytecodes, modelled at instruction granularity: one list slot
per bytecode offset.  Only the classifications that `BreakIterator` inspects
are distinguished (`kDebugger`, `kReturn`, `kSuspendGenerator`,
call-or-construct, everything else); `kWide` models a scaling-escorted
instruction (the source reads the byte after the scaling byte to classify it),
and `kDebugBreak b` models the debug-break variant patched over `b`. -/
inductive Bytecode where
  | kDebugger : Bytecode
  | kReturn : Bytecode
  | kSuspendGenerator (genReg : Nat) (suspendId : Nat) : Bytecode
  | kCallOrConstruct : Bytecode
  | kOther : Bytecode
  | kWide (b : Bytecode) : Bytecode
  | kDebugBreak (b : Bytecode) : Bytecode
deriving DecidableEq, Repr

/-- The classification of an instrumentable point, following the
`DebugBreakType` enumeration used by `BreakIterator::GetDebugBreakType` and
`BreakLocation` (`DEBUG_BREAK_AT_ENTRY` is the synthetic entry-break kind). -/
inductive DebugBreakType where
  | NOT_DEBUG_BREAK : DebugBreakType
  | DEBUGGER_STATEMENT : DebugBreakType
  | DEBUG_BREAK_SLOT : DebugBreakType
  | DEBUG_BREAK_SLOT_AT_CALL : DebugBreakType
  | DEBUG_BREAK_SLOT_AT_RETURN : DebugBreakType
  | DEBUG_BREAK_SLOT_AT_SUSPEND : DebugBreakType
  | DEBUG_BREAK_AT_ENTRY : DebugBreakType
deriving DecidableEq, Repr

/-- One entry of a function's source position table: a bytecode offset, the
script offset of the source position recorded there, and whether the entry is
a statement position. -/
structure SpEntry where
  codeOffset : Nat
  scriptOffset : Nat
  isStatement : Bool
deriving DecidableEq, Repr

/-- The per-function debug record as far as the break iterator is concerned:
the original (never patched) bytecode, the debug (patchable) copy, the source
position table of the debug bytecode, and the function's start position. -/
structure DebugInfo where
  originalBytecode : List Bytecode
  debugBytecode : List Bytecode
  sourcePositionTable : List SpEntry
  startPosition : Nat
deriving DecidableEq, Repr

/-- `Bytecodes::IsPrefixScalingBytecode` handling in
`BreakIterator::GetDebugBreakType`: when the slot holds a scaling-escorted
instruction, classification looks through to the actual bytecode. -/
def actualBytecode : Bytecode → Bytecode
  | .kWide b => b
  | b => b

/-- `BreakIterator::GetDebugBreakType` (debug.cc): classify the bytecode of
the ORIGINAL bytecode array at the entry's code offset; a statement-position
entry of a non-special bytecode is a plain `DEBUG_BREAK_SLOT`, everything else
is not a break. -/
def getDebugBreakType (original : List Bytecode) (e : SpEntry) : DebugBreakType :=
  match actualBytecode (original.getD e.codeOffset .kOther) with
  | .kDebugger => .DEBUGGER_STATEMENT
  | .kReturn => .DEBUG_BREAK_SLOT_AT_RETURN
  | .kSuspendGenerator _ _ => .DEBUG_BREAK_SLOT_AT_SUSPEND
  | .kCallOrConstruct => .DEBUG_BREAK_SLOT_AT_CALL
  | _ => if e.isStatement then .DEBUG_BREAK_SLOT else .NOT_DEBUG_BREAK

/-- Whether a source position table entry is an instrumentable break location
of the function (its `GetDebugBreakType` is not `NOT_DEBUG_BREAK`). -/
def isBreakEntry (original : List Bytecode) (e : SpEntry) : Bool :=
  getDebugBreakType original e ≠ DebugBreakType.NOT_DEBUG_BREAK

/-- `BreakIterator` state: the break index (−1 before the first `Next`), the
remaining source position table (whose head is the iterator's current entry —
the iterator is `Done` when it is empty), and the current source/statement
positions. -/
structure BreakIterator where
  breakIndex : Int
  rest : List SpEntry
  position : Nat
  statementPosition : Nat
deriving DecidableEq, Repr

/-- `BreakIterator::Done`: the source position iterator is exhausted. -/
def BreakIterator.Done (it : BreakIterator) : Bool := it.rest.isEmpty

/-- `BreakIterator::code_offset`: the current entry's code offset (meaningless
on a `Done` iterator, which the source forbids; 0 there). -/
def BreakIterator.codeOffset (it : BreakIterator) : Nat :=
  match it.rest with
  | [] => 0
  | e :: _ => e.codeOffset

/-- The loop body of `BreakIterator::Next`: examine the current entry (the
head of `rest`), update `position_` (and `statement_position_` on statement
entries), stop with `break_index_++` on a break entry, otherwise advance; when
the table is exhausted, return without touching the break index. -/
def nextLoop (original : List Bytecode) :
    List SpEntry → Nat → Nat → Int → BreakIterator
  | [], pos, stmt, bi => ⟨bi, [], pos, stmt⟩
  | e :: rest, _, stmt, bi =>
    let pos' := e.scriptOffset
    let stmt' := if e.isStatement then pos' else stmt
    if isBreakEntry original e then ⟨bi + 1, e :: rest, pos', stmt'⟩
    else nextLoop original rest pos' stmt' bi

/-- `BreakIterator::Next` for an iterator that has performed its initial
`Next` (so the `first` flag of the loop is false): advance past the current
entry, then scan for the next break entry.  On a `Done` iterator the while
loop is skipped and the break index is incremented (the source forbids this
case by assertion). -/
def next (di : DebugInfo) (it : BreakIterator) : BreakIterator :=
  match it.rest with
  | [] => { it with breakIndex := it.breakIndex + 1 }
  | _ :: rest' => nextLoop di.originalBytecode rest' it.position it.statementPosition it.breakIndex

/-- The `BreakIterator` constructor: start the positions at the function's
start position and perform the initial `Next` (with the `first` flag set, so
the first table entry itself is examined before any advance). -/
def fromStart (di : DebugInfo) : BreakIterator :=
  match di.sourcePositionTable with
  | [] => ⟨0, [], di.startPosition, di.startPosition⟩
  | _ :: _ => nextLoop di.originalBytecode di.sourcePositionTable di.startPosition di.startPosition (-1)

/-- `GetDebugBreakType` evaluated at the iterator's current entry
(`NOT_DEBUG_BREAK` on a `Done` iterator, which the source forbids). -/
def getDebugBreakTypeAt (di : DebugInfo) (it : BreakIterator) : DebugBreakType :=
  match it.rest with
  | [] => .NOT_DEBUG_BREAK
  | e :: _ => getDebugBreakType di.originalBytecode e

/-- Modelled from the spec: `BytecodeArrayIterator::ApplyDebugBreak` (the
bytecode iterator lives outside this excerpt) idempotently replaces the
instruction with its debug-break variant — patching an already patched slot
leaves it unchanged. -/
def applyDebugBreakInstr : Bytecode → Bytecode
  | .kDebugBreak b => .kDebugBreak b
  | b => .kDebugBreak b

/-- `BreakIterator::SetDebugBreak`: a no-op at a debugger statement; otherwise
patch the DEBUG bytecode copy at the current code offset with the debug-break
variant of the instruction found there. -/
def SetDebugBreak (di : DebugInfo) (it : BreakIterator) : DebugInfo :=
  if getDebugBreakTypeAt di it = .DEBUGGER_STATEMENT then di
  else
    { di with
      debugBytecode :=
        di.debugBytecode.set it.codeOffset
          (applyDebugBreakInstr (di.debugBytecode.getD it.codeOffset .kOther)) }

/-- `BreakIterator::ClearDebugBreak`: a no-op at a debugger statement;
otherwise copy the ORIGINAL bytecode byte back over the debug copy at the
current code offset. -/
def ClearDebugBreak (di : DebugInfo) (it : BreakIterator) : DebugInfo :=
  if getDebugBreakTypeAt di it = .DEBUGGER_STATEMENT then di
  else
    { di with
      debugBytecode :=
        di.debugBytecode.set it.codeOffset
          (di.originalBytecode.getD it.codeOffset .kOther) }

/-- The scan of `nextLoop` never lengthens the remaining table. -/
theorem nextLoop_rest_length_le (original : List Bytecode) (rest : List SpEntry)
    (pos stmt : Nat) (bi : Int) :
    (nextLoop original rest pos stmt bi).rest.length ≤ rest.length := by
  induction rest generalizing pos stmt with
  | nil => simp [nextLoop]
  | cons e rest ih =>
    simp only [nextLoop]
    split
    · simp
    · exact Nat.le_trans (ih _ _) (Nat.le_succ _)

/-- A `Next` on a not-yet-done iterator consumes at least one table entry. -/
theorem next_rest_length_lt (di : DebugInfo) (it : BreakIterator)
    (h : it.rest ≠ []) : (next di it).rest.length < it.rest.length := by
  match hr : it.rest with
  | [] => exact absurd hr h
  | e :: rest' =>
    simp only [next, hr]
    exact Nat.lt_of_le_of_lt (nextLoop_rest_length_le _ _ _ _ _) (by simp)

/-- A not-done iterator has a nonempty remaining table. -/
theorem rest_ne_of_not_done (it : BreakIterator) (h : ¬ it.Done = true) :
    it.rest ≠ [] := by
  simpa [BreakIterator.Done, List.isEmpty_iff] using h

/-- The inner loop of `BreakIterator::BreakIndexFromPosition`: scan the
remaining locations for one whose source position equals the requested
position exactly; return its break index, or `firstBreak` if none exists. -/
def breakIndexExactLoop (di : DebugInfo) (p : Nat) (it : BreakIterator)
    (firstBreak : Int) : Int :=
  if h : it.Done then firstBreak
  else if it.position = p then it.breakIndex
  else breakIndexExactLoop di p (next di it) firstBreak
termination_by it.rest.length
decreasing_by exact next_rest_length_lt di it (rest_ne_of_not_done it h)

/-- `BreakIterator::BreakIndexFromPosition`: advance to the first location
whose source position is at least the requested one, remember its break index
as `first_break`, then prefer an exact match among the remaining locations;
when every location's position is below the requested one the loop runs the
iterator out and the final break index is returned. -/
def BreakIndexFromPosition (di : DebugInfo) (p : Nat) (it : BreakIterator) : Int :=
  if h : it.Done then it.breakIndex
  else if p ≤ it.position then breakIndexExactLoop di p it it.breakIndex
  else BreakIndexFromPosition di p (next di it)
termination_by it.rest.length
decreasing_by exact next_rest_length_lt di it (rest_ne_of_not_done it h)

/-- `BreakIterator::SkipTo` (declared in the debug header, outside this
excerpt): perform `count` `Next` steps. -/
def skipToNat (di : DebugInfo) (it : BreakIterator) : Nat → BreakIterator
  | 0 => it
  | n + 1 => skipToNat di (next di it) n

/-- `SkipTo` with the source's `int` count (a non-positive count is a no-op). -/
def SkipTo (di : DebugInfo) (it : BreakIterator) (count : Int) : BreakIterator :=
  skipToNat di it count.toNat

/-- `BreakIterator::SkipToPosition`: compute the break index for the position
on a fresh iterator of the same function, then `SkipTo` it. -/
def SkipToPosition (di : DebugInfo) (it : BreakIterator) (p : Nat) : BreakIterator :=
  SkipTo di it (BreakIndexFromPosition di p (fromStart di))

/-- `kMaxInt`, the initial best distance of
`BreakLocation::BreakIndexFromCodeOffset`. -/
def kMaxInt : Nat := 2147483647

/-- The loop of `BreakLocation::BreakIndexFromCodeOffset`: keep the break
index of the location whose code offset is nearest below the target offset,
stopping early on an exact match. -/
def breakIndexFromCodeOffsetLoop (di : DebugInfo) (offset : Nat)
    (it : BreakIterator) (closest : Int) (distance : Nat) : Int :=
  if h : it.Done then closest
  else if it.codeOffset ≤ offset ∧ offset - it.codeOffset < distance then
    if offset - it.codeOffset = 0 then it.breakIndex
    else breakIndexFromCodeOffsetLoop di offset (next di it) it.breakIndex
        (offset - it.codeOffset)
  else breakIndexFromCodeOffsetLoop di offset (next di it) closest distance
termination_by it.rest.length
decreasing_by
  all_goals exact next_rest_length_lt di it (rest_ne_of_not_done it h)

/-- `BreakLocation::BreakIndexFromCodeOffset`: run through all break
locations of the function to find the one closest to, and not exceeding, the
given code offset (starting from break index 0 and distance `kMaxInt`). -/
def BreakIndexFromCodeOffset (di : DebugInfo) (offset : Nat) : Int :=
  breakIndexFromCodeOffsetLoop di offset (fromStart di) 0 kMaxInt

/-- The condition under which an iterator position is flooded by
`Debug::FloodWithOneShot` when `returns_only` is requested:
`BreakLocation::IsReturnOrSuspend` of the location's type. -/
def DebugBreakType.isReturnOrSuspend : DebugBreakType → Bool
  | .DEBUG_BREAK_SLOT_AT_RETURN => true
  | .DEBUG_BREAK_SLOT_AT_SUSPEND => true
  | _ => false

/-- The loop of `Debug::FloodWithOneShot` over a function's break locations:
`SetDebugBreak` at every location (or only at return/suspend locations when
`returns_only` is set). -/
def floodLoop (di : DebugInfo) (returnsOnly : Bool) (it : BreakIterator) : DebugInfo :=
  if h : it.Done then di
  else
    let di' :=
      if returnsOnly ∧ ¬ (getDebugBreakTypeAt di it).isReturnOrSuspend then di
      else SetDebugBreak di it
    floodLoop di' returnsOnly (next di' it)
termination_by it.rest.length
decreasing_by exact next_rest_length_lt _ it (rest_ne_of_not_done it h)

/-- `Debug::FloodWithOneShot`'s per-function instrumentation effect on the
debug info record. -/
def floodDebugInfo (di : DebugInfo) (returnsOnly : Bool) : DebugInfo :=
  floodLoop di returnsOnly (fromStart di)

/-- Writing back the value already stored (or writing out of range) leaves a
list unchanged. -/
theorem list_set_getD_self {α : Type} (l : List α) (i : Nat) (d : α) :
    l.set i (l.getD i d) = l := by
  induction l generalizing i with
  | nil => simp
  | cons a l ih =>
    cases i with
    | zero => simp
    | succ j => simpa [List.getD] using ih j

/-- Patching a position and then patching it again keeps only the second
write. -/
theorem list_set_set {α : Type} (l : List α) (i : Nat) (a b : α) :
    (l.set i a).set i b = l.set i b := by
  induction l generalizing i with
  | nil => simp
  | cons x l ih =>
    cases i with
    | zero => simp
    | succ j => simp [ih]

/-- `List.set` does not change values at other positions or the length, so
`getD` elsewhere is untouched. -/
theorem list_getD_set_ne {α : Type} (l : List α) (i j : Nat) (a d : α)
    (h : i ≠ j) : (l.set i a).getD j d = l.getD j d := by
  induction l generalizing i j with
  | nil => simp
  | cons x l ih =>
    cases i with
    | zero => cases j with
      | zero => exact absurd rfl h
      | succ j' => simp
    | succ i' => cases j with
      | zero => simp
      | succ j' => simpa using ih i' j' (by omega)

/-- C3: at every break location other than a debugger statement,
`SetDebugBreak` followed immediately by `ClearDebugBreak` at the same
iterator position restores the debug bytecode byte-for-byte to its pre-patch
(unpatched) value, and at a debugger-statement location both operations are
no-ops on the debug info. -/
theorem setDebugBreak_clearDebugBreak_roundtrip (di : DebugInfo)
    (it : BreakIterator)
    (hpre : di.debugBytecode.getD it.codeOffset .kOther =
            di.originalBytecode.getD it.codeOffset .kOther) :
    (getDebugBreakTypeAt di it ≠ .DEBUGGER_STATEMENT →
       ClearDebugBreak (SetDebugBreak di it) it = di) ∧
    (getDebugBreakTypeAt di it = .DEBUGGER_STATEMENT →
       SetDebugBreak di it = di ∧ ClearDebugBreak di it = di) := by
  constructor
  · intro hty
    have hset : SetDebugBreak di it =
        { di with
          debugBytecode :=
            di.debugBytecode.set it.codeOffset
              (applyDebugBreakInstr (di.debugBytecode.getD it.codeOffset .kOther)) } := by
      simp [SetDebugBreak, hty]
    have hty' : getDebugBreakTypeAt (SetDebugBreak di it) it =
        getDebugBreakTypeAt di it := by
      rw [hset]
      simp [getDebugBreakTypeAt]
    rw [ClearDebugBreak]
    rw [hty', if_neg hty, hset]
    simp only [list_set_set]
    rw [← hpre, list_set_getD_self]
  · intro hty
    constructor
    · simp [SetDebugBreak, hty]
    · simp [ClearDebugBreak, hty]

/-- A one-location example function: a single statement-position entry over a
call bytecode, with unpatched debug bytecode. -/
def exDi : DebugInfo :=
  { originalBytecode := [.kCallOrConstruct]
    debugBytecode := [.kCallOrConstruct]
    sourcePositionTable := [⟨0, 0, true⟩]
    startPosition := 0 }

/-- Witness for C3: the round trip at the (call-kind) break location of the
example function restores the record exactly. -/
theorem setDebugBreak_clearDebugBreak_roundtrip_witness :
    ClearDebugBreak (SetDebugBreak exDi (fromStart exDi)) (fromStart exDi) = exDi :=
  (setDebugBreak_clearDebugBreak_roundtrip exDi (fromStart exDi) (by decide)).1
    (by decide)

/-- The break locations of a function, in increasing bytecode-offset order:
the source position table entries that classify as breaks.  The iterator
enumerates exactly this list (proved below). -/
def breakEntries (di : DebugInfo) : List SpEntry :=
  di.sourcePositionTable.filter (isBreakEntry di.originalBytecode)

/-- The source positions of the function's break locations, in iteration
order. -/
def breakPositionList (di : DebugInfo) : List Nat :=
  (breakEntries di).map (·.scriptOffset)

/-- The bytecode offsets of the function's break locations, in iteration
order. -/
def breakOffsetList (di : DebugInfo) : List Nat :=
  (breakEntries di).map (·.codeOffset)

/-- `nextLoop` stops exactly at the first break entry of the remaining
table. -/
theorem nextLoop_rest_eq (original : List Bytecode) (rest : List SpEntry)
    (pos stmt : Nat) (bi : Int) :
    (nextLoop original rest pos stmt bi).rest =
      rest.dropWhile (fun e => ! isBreakEntry original e) := by
  induction rest generalizing pos stmt with
  | nil => simp [nextLoop]
  | cons e rest ih =>
    by_cases h : isBreakEntry original e
    · simp [nextLoop, h, List.dropWhile_cons]
    · simp [nextLoop, h, List.dropWhile_cons, ih]

/-- `nextLoop` increments the break index exactly when it finds a break
entry. -/
theorem nextLoop_breakIndex_eq (original : List Bytecode) (rest : List SpEntry)
    (pos stmt : Nat) (bi : Int) :
    (nextLoop original rest pos stmt bi).breakIndex =
      if rest.dropWhile (fun e => ! isBreakEntry original e) = [] then bi
      else bi + 1 := by
  induction rest generalizing pos stmt with
  | nil => simp [nextLoop]
  | cons e rest ih =>
    by_cases h : isBreakEntry original e
    · simp [nextLoop, h, List.dropWhile_cons]
    · simp [nextLoop, h, List.dropWhile_cons, ih]

/-- When `nextLoop` finds a break entry, it leaves `position_` at that
entry's script offset. -/
theorem nextLoop_position_found (original : List Bytecode) (rest : List SpEntry)
    (pos stmt : Nat) (bi : Int) (e : SpEntry) (t : List SpEntry)
    (h : rest.dropWhile (fun e => ! isBreakEntry original e) = e :: t) :
    (nextLoop original rest pos stmt bi).position = e.scriptOffset := by
  induction rest generalizing pos stmt with
  | nil => simp at h
  | cons a rest ih =>
    by_cases ha : isBreakEntry original a
    · simp only [List.dropWhile_cons, ha, Bool.not_true, reduceIte] at h
      obtain ⟨rfl, rfl⟩ := h
      simp [nextLoop, ha]
    · simp only [List.dropWhile_cons, ha, Bool.not_false, reduceIte] at h
      simp [nextLoop, ha, ih _ _ h]

/-- Skipping the leading non-break entries does not change the filtered break
entries. -/
theorem filter_dropWhile_not {α : Type} (p : α → Bool) (l : List α) :
    (l.dropWhile (fun a => ! p a)).filter p = l.filter p := by
  induction l with
  | nil => simp
  | cons a l ih =>
    by_cases h : p a
    · simp [List.dropWhile_cons, h]
    · simp [List.dropWhile_cons, h, ih]

/-- No break entry remains exactly when the filtered list is empty. -/
theorem dropWhile_not_eq_nil_iff {α : Type} (p : α → Bool) (l : List α) :
    l.dropWhile (fun a => ! p a) = [] ↔ l.filter p = [] := by
  induction l with
  | nil => simp
  | cons a l ih =>
    by_cases h : p a
    · simp [List.dropWhile_cons, h]
    · simp [List.dropWhile_cons, h, ih]

/-- The first entry surviving `dropWhile` satisfies the predicate. -/
theorem head_sat_of_dropWhile {α : Type} (p : α → Bool) (l : List α)
    (e : α) (t : List α) (h : l.dropWhile (fun a => ! p a) = e :: t) :
    p e = true := by
  induction l with
  | nil => simp at h
  | cons a l ih =>
    by_cases ha : p a
    · rw [List.dropWhile_cons] at h
      simp only [ha, Bool.not_true, reduceIte] at h
      cases h; exact ha
    · rw [List.dropWhile_cons] at h
      simp only [ha, Bool.not_false, reduceIte] at h
      exact ih h

/-- Splitting the filtered list at the first surviving entry. -/
theorem filter_of_dropWhile_cons {α : Type} (p : α → Bool) (l : List α)
    (e : α) (t : List α) (h : l.dropWhile (fun a => ! p a) = e :: t) :
    l.filter p = e :: t.filter p := by
  have he := head_sat_of_dropWhile p l e t h
  have := filter_dropWhile_not p l
  rw [h] at this
  rw [← this, List.filter_cons, if_pos he]

/-- The invariant describing the iterator positioned at the function's `k`-th
break location: the break index is `k`, the remaining table's break entries
are exactly the break locations from `k` on, and the head of the remaining
table is the current (break) entry, whose script offset is the iterator's
position. -/
def AtLoc (di : DebugInfo) (k : Nat) (it : BreakIterator) : Prop :=
  it.breakIndex = (k : Int) ∧
  it.rest.filter (isBreakEntry di.originalBytecode) = (breakEntries di).drop k ∧
  ∀ e t, it.rest = e :: t →
    isBreakEntry di.originalBytecode e = true ∧ it.position = e.scriptOffset

/-- Unpacking `AtLoc` when location `k` exists. -/
theorem AtLoc.destruct {di : DebugInfo} {k : Nat} {it : BreakIterator}
    (h : AtLoc di k it) (hk : k < (breakEntries di).length) :
    ∃ t, it.rest = (breakEntries di).get ⟨k, hk⟩ :: t ∧
      t.filter (isBreakEntry di.originalBytecode) = (breakEntries di).drop (k + 1) ∧
      it.position = ((breakEntries di).get ⟨k, hk⟩).scriptOffset ∧
      it.breakIndex = (k : Int) := by
  obtain ⟨hbi, hfil, hhead⟩ := h
  have hne : it.rest ≠ [] := by
    intro hnil
    rw [hnil] at hfil
    have : (breakEntries di).length ≤ k := by
      simpa [List.drop_eq_nil_iff] using hfil.symm
    omega
  match hr : it.rest with
  | [] => exact absurd hr hne
  | e :: t =>
    obtain ⟨hbe, hpos⟩ := hhead e t hr
    rw [hr, List.filter_cons, if_pos hbe] at hfil
    have hdropk : (breakEntries di).drop k =
        (breakEntries di).get ⟨k, hk⟩ :: (breakEntries di).drop (k + 1) := by
      rw [List.drop_eq_getElem_cons hk]
      rfl
    rw [hdropk] at hfil
    have he : e = (breakEntries di).get ⟨k, hk⟩ := (List.cons.injEq .. ▸ hfil).1
    have ht : t.filter (isBreakEntry di.originalBytecode) =
        (breakEntries di).drop (k + 1) := (List.cons.injEq .. ▸ hfil).2
    refine ⟨t, ?_, ht, ?_, hbi⟩
    · rw [he]
    · rw [hpos, he]

/-- A fresh iterator of a function with at least one break location is
positioned at break location 0. -/
theorem atLoc_fromStart (di : DebugInfo) (h : breakEntries di ≠ []) :
    AtLoc di 0 (fromStart di) := by
  have htab : di.sourcePositionTable ≠ [] := by
    intro hnil
    exact h (by simp [breakEntries, hnil])
  have hfs : fromStart di = nextLoop di.originalBytecode di.sourcePositionTable
      di.startPosition di.startPosition (-1) := by
    match htab' : di.sourcePositionTable with
    | [] => exact absurd htab' htab
    | e :: t => rw [fromStart.eq_def, htab']
  have hrest := nextLoop_rest_eq di.originalBytecode di.sourcePositionTable
    di.startPosition di.startPosition (-1)
  have hdwne : di.sourcePositionTable.dropWhile
      (fun e => ! isBreakEntry di.originalBytecode e) ≠ [] := by
    intro hnil
    exact h ((dropWhile_not_eq_nil_iff _ _).mp hnil)
  refine ⟨?_, ?_, ?_⟩
  · rw [hfs, nextLoop_breakIndex_eq, if_neg hdwne]
    norm_num
  · rw [hfs, hrest, filter_dropWhile_not]
    simp [breakEntries]
  · intro e t hr
    rw [hfs, hrest] at hr
    refine ⟨head_sat_of_dropWhile _ _ _ _ hr, ?_⟩
    rw [hfs, nextLoop_position_found di.originalBytecode _ _ _ _ e t hr]

/-- Advancing from break location `k` reaches break location `k + 1` when it
exists. -/
theorem atLoc_next (di : DebugInfo) (k : Nat) (it : BreakIterator)
    (h : AtLoc di k it) (hk : k + 1 < (breakEntries di).length) :
    AtLoc di (k + 1) (next di it) := by
  obtain ⟨t, hr, ht, _, hbi⟩ := h.destruct (Nat.lt_of_succ_lt hk)
  have hnext : next di it = nextLoop di.originalBytecode t it.position
      it.statementPosition it.breakIndex := by
    rw [next.eq_def, hr]
  have hrest := nextLoop_rest_eq di.originalBytecode t it.position
    it.statementPosition it.breakIndex
  have hdwne : t.dropWhile (fun e => ! isBreakEntry di.originalBytecode e) ≠ [] := by
    intro hnil
    have : t.filter (isBreakEntry di.originalBytecode) = [] :=
      (dropWhile_not_eq_nil_iff _ _).mp hnil
    rw [ht] at this
    have : (breakEntries di).length ≤ k + 1 := by
      simpa [List.drop_eq_nil_iff] using this
    omega
  refine ⟨?_, ?_, ?_⟩
  · rw [hnext, nextLoop_breakIndex_eq, if_neg hdwne, hbi]
    push_cast
    ring
  · rw [hnext, hrest, filter_dropWhile_not, ht]
  · intro e t' hr'
    rw [hnext, hrest] at hr'
    refine ⟨head_sat_of_dropWhile _ _ _ _ hr', ?_⟩
    rw [hnext, nextLoop_position_found di.originalBytecode _ _ _ _ e t' hr']

/-- Advancing from the last break location runs the iterator out: it becomes
`Done` while keeping the last break index. -/
theorem atLoc_next_last (di : DebugInfo) (k : Nat) (it : BreakIterator)
    (h : AtLoc di k it) (hk : k + 1 = (breakEntries di).length) :
    (next di it).rest = [] ∧ (next di it).breakIndex = (k : Int) := by
  obtain ⟨t, hr, ht, _, hbi⟩ := h.destruct (by omega)
  have hnext : next di it = nextLoop di.originalBytecode t it.position
      it.statementPosition it.breakIndex := by
    rw [next.eq_def, hr]
  have hfil : t.filter (isBreakEntry di.originalBytecode) = [] := by
    rw [ht, List.drop_eq_nil_iff]
    omega
  have hdw : t.dropWhile (fun e => ! isBreakEntry di.originalBytecode e) = [] :=
    (dropWhile_not_eq_nil_iff _ _).mpr hfil
  constructor
  · rw [hnext, nextLoop_rest_eq, hdw]
  · rw [hnext, nextLoop_breakIndex_eq, if_pos hdw, hbi]

/-- `SkipTo` moves from break location `k` to break location `k + n` when the
latter exists. -/
theorem skipToNat_atLoc (di : DebugInfo) (n : Nat) :
    ∀ (k : Nat) (it : BreakIterator), AtLoc di k it →
      k + n < (breakEntries di).length →
      AtLoc di (k + n) (skipToNat di it n) := by
  induction n with
  | zero => intro k it h _; simpa [skipToNat] using h
  | succ m ih =>
    intro k it h hk
    have h1 : AtLoc di (k + 1) (next di it) := atLoc_next di k it h (by omega)
    have := ih (k + 1) (next di it) h1 (by omega)
    simpa [skipToNat, Nat.add_assoc, Nat.add_comm 1 m] using this

/-- Index of the first element of a list satisfying a predicate, if any. -/
def findFirst (f : Nat → Bool) : List Nat → Option Nat
  | [] => none
  | q :: l => if f q then some 0 else (findFirst f l).map (· + 1)

/-- `findFirst` on a cons whose head satisfies the predicate. -/
theorem findFirst_cons_pos (f : Nat → Bool) (q : Nat) (l : List Nat)
    (h : f q = true) : findFirst f (q :: l) = some 0 := by
  simp [findFirst, h]

/-- `findFirst` on a cons whose head fails the predicate. -/
theorem findFirst_cons_neg (f : Nat → Bool) (q : Nat) (l : List Nat)
    (h : f q = false) : findFirst f (q :: l) = (findFirst f l).map (· + 1) := by
  simp [findFirst, h]

/-- A found index is in range, satisfies the predicate, and is least. -/
theorem findFirst_some_spec (f : Nat → Bool) (l : List Nat) (j : Nat)
    (h : findFirst f l = some j) :
    j < l.length ∧ f (l.getD j 0) = true ∧ ∀ i, i < j → f (l.getD i 0) = false := by
  induction l generalizing j with
  | nil => simp [findFirst] at h
  | cons q l ih =>
    rw [findFirst] at h
    by_cases hq : f q = true
    · rw [if_pos hq] at h
      obtain rfl : 0 = j := by simpa using h
      exact ⟨by simp, by simpa using hq, fun i hi => by omega⟩
    · rw [if_neg hq] at h
      match hff : findFirst f l with
      | none => rw [hff] at h; simp at h
      | some j' =>
        rw [hff] at h
        obtain rfl : j' + 1 = j := by simpa using h
        obtain ⟨h1, h2, h3⟩ := ih j' hff
        refine ⟨by simpa using h1, by simpa using h2, ?_⟩
        intro i hi
        cases i with
        | zero => simpa using hq
        | succ i' => simpa using h3 i' (by omega)

/-- When no index is found, no element satisfies the predicate. -/
theorem findFirst_none_spec (f : Nat → Bool) (l : List Nat)
    (h : findFirst f l = none) : ∀ q ∈ l, f q = false := by
  induction l with
  | nil => simp
  | cons q l ih =>
    rw [findFirst] at h
    by_cases hq : f q = true
    · rw [if_pos hq] at h; simp at h
    · rw [if_neg hq] at h
      have hff : findFirst f l = none := by
        match hff : findFirst f l with
        | none => rfl
        | some j' => rw [hff] at h; simp at h
      intro q' hq'
      rcases List.mem_cons.mp hq' with rfl | hmem
      · simpa using hq
      · exact ih hff q' hmem

/-- A satisfying element guarantees a found index. -/
theorem findFirst_isSome (f : Nat → Bool) (l : List Nat)
    (h : ∃ q ∈ l, f q = true) : ∃ j, findFirst f l = some j := by
  match hf : findFirst f l with
  | some j => exact ⟨j, rfl⟩
  | none =>
    obtain ⟨q, hq, hfq⟩ := h
    have := findFirst_none_spec f l hf q hq
    simp [hfq] at this

/-- The inner (exact-match) loop of `BreakIndexFromPosition`, characterised
over the positions of the function's break locations: starting at location
`k`, it returns the break index of the first location at or after `k` whose
position is exactly `p`, or the fallback index if none exists. -/
theorem breakIndexExactLoop_spec (di : DebugInfo) (p : Nat) :
    ∀ (k : Nat) (it : BreakIterator) (fb : Int), AtLoc di k it →
      k < (breakEntries di).length →
      breakIndexExactLoop di p it fb =
        match findFirst (fun q => q = p) ((breakPositionList di).drop k) with
        | some j => ((k + j : Nat) : Int)
        | none => fb := by
  suffices hmain : ∀ (n k : Nat) (it : BreakIterator) (fb : Int),
      (breakEntries di).length - k = n → AtLoc di k it →
      k < (breakEntries di).length →
      breakIndexExactLoop di p it fb =
        match findFirst (fun q => q = p) ((breakPositionList di).drop k) with
        | some j => ((k + j : Nat) : Int)
        | none => fb by
    intro k it fb h hk
    exact hmain _ k it fb rfl h hk
  intro n
  induction n using Nat.strong_induction_on with
  | _ n ih =>
    intro k it fb hn h hk
    obtain ⟨t, hr, _, hpos, hbi⟩ := h.destruct hk
    have hlen : (breakPositionList di).length = (breakEntries di).length := by
      simp [breakPositionList]
    have hdropk : (breakPositionList di).drop k =
        ((breakEntries di).get ⟨k, hk⟩).scriptOffset ::
          (breakPositionList di).drop (k + 1) := by
      rw [List.drop_eq_getElem_cons (by omega)]
      simp [breakPositionList]
    have hdone : it.Done = false := by
      simp [BreakIterator.Done, hr]
    rw [breakIndexExactLoop]
    rw [hdone]
    simp only [Bool.false_eq_true, reduceDIte]
    by_cases heq : it.position = p
    · rw [if_pos heq]
      have hexact : ((breakEntries di).get ⟨k, hk⟩).scriptOffset = p :=
        hpos.symm.trans heq
      have hexact2 : (breakEntries di)[k].scriptOffset = p := by
        simpa using hexact
      rw [hdropk, findFirst_cons_pos _ _ _ (by simp [hexact2])]
      simp [hbi]
    · rw [if_neg heq]
      have hheadne : ¬ ((breakEntries di).get ⟨k, hk⟩).scriptOffset = p :=
        fun hX => heq (hpos.trans hX)
      have hheadne2 : ¬ (breakEntries di)[k].scriptOffset = p := by
        simpa using hheadne
      by_cases hk1 : k + 1 < (breakEntries di).length
      · have h1 : AtLoc di (k + 1) (next di it) := atLoc_next di k it h hk1
        rw [ih ((breakEntries di).length - (k + 1)) (by omega) (k + 1)
          (next di it) fb rfl h1 hk1]
        rw [hdropk, findFirst_cons_neg _ _ _ (by simp [hheadne2])]
        match hff : findFirst (fun q => decide (q = p))
            ((breakPositionList di).drop (k + 1)) with
        | some j =>
          have hadd : k + 1 + j = k + (j + 1) := by omega
          simp [hadd]
        | none => simp [hff]
      · have hlast : k + 1 = (breakEntries di).length := by omega
        obtain ⟨hrest2, hbi2⟩ := atLoc_next_last di k it h hlast
        rw [breakIndexExactLoop]
        have hdone2 : (next di it).Done = true := by
          simp [BreakIterator.Done, hrest2]
        rw [hdone2]
        simp only [reduceDIte]
        have hdropk1 : (breakPositionList di).drop (k + 1) = [] := by
          rw [List.drop_eq_nil_iff]
          omega
        rw [hdropk, hdropk1, findFirst_cons_neg _ _ _ (by simp [hheadne2])]
        simp [findFirst]

/-- The outer loop of `BreakIndexFromPosition`, characterised over the
positions of the function's break locations: starting at location `k`, the
result is computed from the first location at or after `k` whose position is
at least `p` (preferring a later exact match), and defaults to the last break
index when every position is below `p`. -/
theorem BreakIndexFromPosition_spec (di : DebugInfo) (p : Nat) :
    ∀ (k : Nat) (it : BreakIterator), AtLoc di k it →
      k < (breakEntries di).length →
      BreakIndexFromPosition di p it =
        match findFirst (fun q => p ≤ q) ((breakPositionList di).drop k) with
        | some j =>
            (match findFirst (fun q => q = p) ((breakPositionList di).drop (k + j)) with
             | some i => ((k + j + i : Nat) : Int)
             | none => ((k + j : Nat) : Int))
        | none => (((breakEntries di).length - 1 : Nat) : Int) := by
  suffices hmain : ∀ (n k : Nat) (it : BreakIterator),
      (breakEntries di).length - k = n → AtLoc di k it →
      k < (breakEntries di).length →
      BreakIndexFromPosition di p it =
        match findFirst (fun q => p ≤ q) ((breakPositionList di).drop k) with
        | some j =>
            (match findFirst (fun q => q = p) ((breakPositionList di).drop (k + j)) with
             | some i => ((k + j + i : Nat) : Int)
             | none => ((k + j : Nat) : Int))
        | none => (((breakEntries di).length - 1 : Nat) : Int) by
    intro k it h hk
    exact hmain _ k it rfl h hk
  intro n
  induction n using Nat.strong_induction_on with
  | _ n ih =>
    intro k it hn h hk
    obtain ⟨t, hr, _, hpos, hbi⟩ := h.destruct hk
    have hdropk : (breakPositionList di).drop k =
        ((breakEntries di).get ⟨k, hk⟩).scriptOffset ::
          (breakPositionList di).drop (k + 1) := by
      rw [List.drop_eq_getElem_cons (by simp [breakPositionList]; omega)]
      simp [breakPositionList]
    have hdone : it.Done = false := by
      simp [BreakIterator.Done, hr]
    rw [BreakIndexFromPosition]
    rw [hdone]
    simp only [Bool.false_eq_true, reduceDIte]
    by_cases hge : p ≤ it.position
    · rw [if_pos hge]
      have hge2 : p ≤ (breakEntries di)[k].scriptOffset := by
        rw [hpos] at hge
        simpa using hge
      have houter : findFirst (fun q => decide (p ≤ q))
          ((breakPositionList di).drop k) = some 0 := by
        rw [hdropk]
        exact findFirst_cons_pos _ _ _ (by simp [hge2])
      rw [breakIndexExactLoop_spec di p k it it.breakIndex h hk, houter]
      simp only [Nat.add_zero]
      match hff : findFirst (fun q => decide (q = p))
          ((breakPositionList di).drop k) with
      | some i => simp [hbi]
      | none => simp [hbi]
    · rw [if_neg hge]
      have hlt2 : ¬ p ≤ (breakEntries di)[k].scriptOffset := by
        rw [hpos] at hge
        simpa using hge
      by_cases hk1 : k + 1 < (breakEntries di).length
      · have h1 : AtLoc di (k + 1) (next di it) := atLoc_next di k it h hk1
        rw [ih ((breakEntries di).length - (k + 1)) (by omega) (k + 1)
          (next di it) rfl h1 hk1]
        rw [hdropk, findFirst_cons_neg _ _ _ (by simp [hlt2])]
        match hff : findFirst (fun q => decide (p ≤ q))
            ((breakPositionList di).drop (k + 1)) with
        | some j =>
          have hadd : k + 1 + j = k + (j + 1) := by omega
          simp only [Option.map_some']
          rw [hadd]
        | none => simp
      · have hlast : k + 1 = (breakEntries di).length := by omega
        obtain ⟨hrest2, hbi2⟩ := atLoc_next_last di k it h hlast
        rw [BreakIndexFromPosition]
        have hdone2 : (next di it).Done = true := by
          simp [BreakIterator.Done, hrest2]
        rw [hdone2]
        simp only [reduceDIte]
        have hdropk1 : (breakPositionList di).drop (k + 1) = [] := by
          rw [List.drop_eq_nil_iff]
          simp [breakPositionList]
          omega
        rw [hdropk, hdropk1, findFirst_cons_neg _ _ _ (by simp [hlt2])]
        simp only [findFirst, Option.map_none']
        rw [hbi2]
        have : (breakEntries di).length - 1 = k := by omega
        rw [this]

/-- At break location `k` the iterator's position is the `k`-th entry of the
function's break position list. -/
theorem atLoc_position_getD (di : DebugInfo) (k : Nat) (it : BreakIterator)
    (h : AtLoc di k it) (hk : k < (breakEntries di).length) :
    it.position = (breakPositionList di).getD k 0 := by
  obtain ⟨t, hr, ht, hpos, hbi⟩ := h.destruct hk
  rw [hpos]
  have hk2 : k < (breakPositionList di).length := by
    simp only [breakPositionList, List.length_map]
    omega
  rw [List.getD_eq_getElem _ _ hk2]
  simp [breakPositionList]

/-- After `SkipToPosition` on a fresh iterator whose computed break index is
`m`, the iterator sits at break location `m`. -/
theorem skipToPosition_result_pos (di : DebugInfo) (p : Nat) (m : Nat)
    (hne : breakEntries di ≠ []) (hm : m < (breakEntries di).length)
    (hidx : BreakIndexFromPosition di p (fromStart di) = (m : Int)) :
    (SkipToPosition di (fromStart di) p).position =
      (breakPositionList di).getD m 0 := by
  rw [SkipToPosition, SkipTo, hidx]
  have htn : ((m : Int)).toNat = m := by simp
  rw [htn]
  have h0 := atLoc_fromStart di hne
  have hAt := skipToNat_atLoc di m 0 (fromStart di) h0 (by omega)
  exact atLoc_position_getD di m _ (by simpa using hAt) hm

/-- C2 (amended): for a function with at least one instrumentable location
and a requested position `p` that is at most some location's position,
`SkipToPosition p` on a fresh iterator lands at a position that is at least
`p`; if `p` is itself the position of some location, the landing position is
exactly `p`; and otherwise the landing position is that of the first location
in bytecode-offset order whose position is at least `p` — in particular no
location earlier in iteration order has a position in `[p, result)`. -/
theorem skipToPosition_nearest (di : DebugInfo) (p : Nat)
    (hex : ∃ q ∈ breakPositionList di, p ≤ q) :
    p ≤ (SkipToPosition di (fromStart di) p).position ∧
    (p ∈ breakPositionList di → (SkipToPosition di (fromStart di) p).position = p) ∧
    ((SkipToPosition di (fromStart di) p).position = p ∨
      ∃ j, j < (breakPositionList di).length ∧
        (SkipToPosition di (fromStart di) p).position = (breakPositionList di).getD j 0 ∧
        ∀ i, i < j → (breakPositionList di).getD i 0 < p) := by
  have hlen : (breakPositionList di).length = (breakEntries di).length := by
    simp [breakPositionList]
  have hne : breakEntries di ≠ [] := by
    intro hnil
    obtain ⟨q, hq, _⟩ := hex
    rw [breakPositionList, hnil] at hq
    simp at hq
  have hL0 : 0 < (breakEntries di).length := by
    cases hE : breakEntries di with
    | nil => exact absurd hE hne
    | cons a l => simp [hE]
  have h0 : AtLoc di 0 (fromStart di) := atLoc_fromStart di hne
  obtain ⟨j, hj⟩ : ∃ j, findFirst (fun q => decide (p ≤ q)) (breakPositionList di) = some j := by
    refine findFirst_isSome _ _ ?_
    obtain ⟨q, hq, hpq⟩ := hex
    exact ⟨q, hq, by simpa using hpq⟩
  have hspec := BreakIndexFromPosition_spec di p 0 (fromStart di) h0 hL0
  simp only [List.drop_zero, Nat.zero_add] at hspec
  rw [hj] at hspec
  dsimp only at hspec
  obtain ⟨hjlen, hjge, hjmin⟩ := findFirst_some_spec _ _ _ hj
  have hjge' : p ≤ (breakPositionList di).getD j 0 := by simpa using hjge
  cases hin : findFirst (fun q => decide (q = p)) ((breakPositionList di).drop j) with
  | some i =>
    rw [hin] at hspec
    obtain ⟨hilen, hieq, _⟩ := findFirst_some_spec _ _ _ hin
    have hjilen : j + i < (breakPositionList di).length := by
      rw [List.length_drop] at hilen
      omega
    have hval : (breakPositionList di).getD (j + i) 0 = p := by
      have h1 : ((breakPositionList di).drop j).getD i 0 =
          (breakPositionList di).getD (j + i) 0 := by
        rw [List.getD_eq_getElem _ _ (by rw [List.length_drop]; omega),
          List.getD_eq_getElem _ _ hjilen]
        simp [List.getElem_drop]
      rw [← h1]
      simpa using hieq
    have hfinal := skipToPosition_result_pos di p (j + i) hne (by omega) hspec
    rw [hfinal, hval]
    exact ⟨Nat.le_refl p, fun _ => rfl, Or.inl rfl⟩
  | none =>
    rw [hin] at hspec
    have hfinal := skipToPosition_result_pos di p j hne (by omega) hspec
    rw [hfinal]
    have hjmin' : ∀ i, i < j → (breakPositionList di).getD i 0 < p := by
      intro i hi
      have := hjmin i hi
      simp only [decide_eq_false_iff_not, Nat.not_le] at this
      omega
    refine ⟨hjge', ?_, Or.inr ⟨j, by omega, rfl, hjmin'⟩⟩
    intro hp
    obtain ⟨m, hm, hmval⟩ := List.mem_iff_getElem.mp hp
    have hmge : j ≤ m := by
      by_contra hlt
      have := hjmin' m (by omega)
      rw [List.getD_eq_getElem _ _ hm] at this
      omega
    have : ∀ q ∈ (breakPositionList di).drop j, (decide (q = p)) = false :=
      findFirst_none_spec _ _ hin
    have hmem : p ∈ (breakPositionList di).drop j := by
      rw [← hmval]
      apply List.mem_iff_getElem.mpr
      refine ⟨m - j, by rw [List.length_drop]; omega, ?_⟩
      rw [List.getElem_drop]
      congr 1
      omega
    have := this p hmem
    simp at this

/-- At break location `k` the iterator's code offset is the `k`-th entry of
the function's break offset list. -/
theorem atLoc_codeOffset_getD (di : DebugInfo) (k : Nat) (it : BreakIterator)
    (h : AtLoc di k it) (hk : k < (breakEntries di).length) :
    it.codeOffset = (breakOffsetList di).getD k 0 := by
  obtain ⟨t, hr, _, _, _⟩ := h.destruct hk
  have hk2 : k < (breakOffsetList di).length := by
    simp only [breakOffsetList, List.length_map]
    omega
  rw [List.getD_eq_getElem _ _ hk2]
  simp [BreakIterator.codeOffset, hr, breakOffsetList]

/-- The pure counterpart of the `BreakIndexFromCodeOffset` loop over the
offsets of the remaining break locations (accumulating the best break index
`c` and best distance `d`). -/
def codeOffsetFold (x : Nat) : List Nat → Nat → Int → Nat → Int
  | [], _, c, _ => c
  | o :: rest, k, c, d =>
    if o ≤ x ∧ x - o < d then
      if x - o = 0 then (k : Int)
      else codeOffsetFold x rest (k + 1) (k : Int) (x - o)
    else codeOffsetFold x rest (k + 1) c d

/-- The iterator loop of `BreakIndexFromCodeOffset` computes `codeOffsetFold`
over the offsets of the break locations from the current one on. -/
theorem breakIndexFromCodeOffsetLoop_spec (di : DebugInfo) (x : Nat) :
    ∀ (k : Nat) (it : BreakIterator) (c : Int) (d : Nat), AtLoc di k it →
      k < (breakEntries di).length →
      breakIndexFromCodeOffsetLoop di x it c d =
        codeOffsetFold x ((breakOffsetList di).drop k) k c d := by
  suffices hmain : ∀ (n k : Nat) (it : BreakIterator) (c : Int) (d : Nat),
      (breakEntries di).length - k = n → AtLoc di k it →
      k < (breakEntries di).length →
      breakIndexFromCodeOffsetLoop di x it c d =
        codeOffsetFold x ((breakOffsetList di).drop k) k c d by
    intro k it c d h hk
    exact hmain _ k it c d rfl h hk
  intro n
  induction n using Nat.strong_induction_on with
  | _ n ih =>
    intro k it c d hn h hk
    obtain ⟨t, hr, _, _, hbi⟩ := h.destruct hk
    have hofflen : (breakOffsetList di).length = (breakEntries di).length := by
      simp [breakOffsetList]
    have hoff := atLoc_codeOffset_getD di k it h hk
    have hdropk : (breakOffsetList di).drop k =
        (breakOffsetList di).getD k 0 :: (breakOffsetList di).drop (k + 1) := by
      rw [List.drop_eq_getElem_cons (by omega), List.getD_eq_getElem _ _ (by omega)]
    have hdone : it.Done = false := by
      simp [BreakIterator.Done, hr]
    rw [breakIndexFromCodeOffsetLoop]
    rw [hdone]
    simp only [Bool.false_eq_true, reduceDIte]
    rw [hdropk, codeOffsetFold]
    rw [hoff, hbi]
    by_cases hupd : (breakOffsetList di).getD k 0 ≤ x ∧
        x - (breakOffsetList di).getD k 0 < d
    · rw [if_pos hupd, if_pos hupd]
      by_cases hz : x - (breakOffsetList di).getD k 0 = 0
      · rw [if_pos hz, if_pos hz]
      · rw [if_neg hz, if_neg hz]
        by_cases hk1 : k + 1 < (breakEntries di).length
        · exact ih ((breakEntries di).length - (k + 1)) (by omega) (k + 1)
            (next di it) _ _ rfl (atLoc_next di k it h hk1) hk1
        · have hlast : k + 1 = (breakEntries di).length := by omega
          obtain ⟨hrest2, _⟩ := atLoc_next_last di k it h hlast
          rw [breakIndexFromCodeOffsetLoop]
          have hdone2 : (next di it).Done = true := by
            simp [BreakIterator.Done, hrest2]
          rw [hdone2]
          simp only [reduceDIte]
          have : (breakOffsetList di).drop (k + 1) = [] := by
            rw [List.drop_eq_nil_iff]
            omega
          rw [this, codeOffsetFold]
    · rw [if_neg hupd, if_neg hupd]
      by_cases hk1 : k + 1 < (breakEntries di).length
      · exact ih ((breakEntries di).length - (k + 1)) (by omega) (k + 1)
          (next di it) _ _ rfl (atLoc_next di k it h hk1) hk1
      · have hlast : k + 1 = (breakEntries di).length := by omega
        obtain ⟨hrest2, _⟩ := atLoc_next_last di k it h hlast
        rw [breakIndexFromCodeOffsetLoop]
        have hdone2 : (next di it).Done = true := by
          simp [BreakIterator.Done, hrest2]
        rw [hdone2]
        simp only [reduceDIte]
        have : (breakOffsetList di).drop (k + 1) = [] := by
          rw [List.drop_eq_nil_iff]
          omega
        rw [this, codeOffsetFold]

/-- When no remaining offset improves the best distance, the fold keeps the
accumulated best index. -/
theorem codeOffsetFold_no_update (x : Nat) (l : List Nat) :
    ∀ (k : Nat) (c : Int) (d : Nat), (∀ o ∈ l, ¬ (o ≤ x ∧ x - o < d)) →
      codeOffsetFold x l k c d = c := by
  induction l with
  | nil => intro k c d _; rfl
  | cons o rest ih =>
    intro k c d h
    rw [codeOffsetFold, if_neg (h o (by simp))]
    exact ih (k + 1) c d (fun o' ho' => h o' (by simp [ho']))

/-- When some remaining offset qualifies and improves the best distance, the
fold returns the first index attaining the maximal qualifying offset. -/
theorem codeOffsetFold_update (x : Nat) (l : List Nat) :
    ∀ (k : Nat) (c : Int) (d : Nat), 0 < d →
      (∃ o ∈ l, o ≤ x ∧ x - o < d) →
      ∃ j, j < l.length ∧ l.getD j 0 ≤ x ∧ x - l.getD j 0 < d ∧
        codeOffsetFold x l k c d = ((k + j : Nat) : Int) ∧
        ∀ o ∈ l, o ≤ x → o ≤ l.getD j 0 := by
  induction l with
  | nil => intro k c d _ hex; simp at hex
  | cons o rest ih =>
    intro k c d hd hex
    by_cases hupd : o ≤ x ∧ x - o < d
    · by_cases hz : x - o = 0
      · refine ⟨0, by simp, by simpa using hupd.1, by simpa using hupd.2, ?_, ?_⟩
        · rw [codeOffsetFold, if_pos hupd, if_pos hz]
          simp
        · intro o' ho' hle
          simp only [List.getD_cons_zero]
          omega
      · have hfold : codeOffsetFold x (o :: rest) k c d =
            codeOffsetFold x rest (k + 1) (k : Int) (x - o) := by
          rw [codeOffsetFold, if_pos hupd, if_neg hz]
        by_cases hrest : ∃ o' ∈ rest, o' ≤ x ∧ x - o' < x - o
        · obtain ⟨j', hj', hle', hd', heq', hmax'⟩ :=
            ih (k + 1) (k : Int) (x - o) (by omega) hrest
          refine ⟨j' + 1, by simpa using hj', by simpa using hle', ?_, ?_, ?_⟩
          · simp only [List.getD_cons_succ]
            omega
          · rw [hfold, heq']
            congr 1
            omega
          · intro o' ho' hle
            simp only [List.getD_cons_succ]
            rcases List.mem_cons.mp ho' with rfl | hmem
            · have := hd'
              have hlej : rest.getD j' 0 ≤ x := hle'
              omega
            · exact hmax' o' hmem hle
        · push_neg at hrest
          refine ⟨0, by simp, by simpa using hupd.1, by simpa using hupd.2, ?_, ?_⟩
          · rw [hfold]
            rw [codeOffsetFold_no_update x rest (k + 1) (k : Int) (x - o) ?hno]
            · simp
            case hno =>
              intro o' ho' hcon
              have := hrest o' ho' hcon.1
              omega
          · intro o' ho' hle
            simp only [List.getD_cons_zero]
            rcases List.mem_cons.mp ho' with rfl | hmem
            · omega
            · have := hrest o' hmem hle
              omega
    · have hfold : codeOffsetFold x (o :: rest) k c d =
          codeOffsetFold x rest (k + 1) c d := by
        rw [codeOffsetFold, if_neg hupd]
      have hex' : ∃ o' ∈ rest, o' ≤ x ∧ x - o' < d := by
        obtain ⟨o', ho', h1, h2⟩ := hex
        rcases List.mem_cons.mp ho' with rfl | hmem
        · exact absurd ⟨h1, h2⟩ hupd
        · exact ⟨o', hmem, h1, h2⟩
      obtain ⟨j', hj', hle', hd', heq', hmax'⟩ := ih (k + 1) c d hd hex'
      refine ⟨j' + 1, by simpa using hj', by simpa using hle', ?_, ?_, ?_⟩
      · simp only [List.getD_cons_succ]
        omega
      · rw [hfold, heq']
        congr 1
        omega
      · intro o' ho' hle
        simp only [List.getD_cons_succ]
        rcases List.mem_cons.mp ho' with rfl | hmem
        · have : ¬ x - o' < d := fun hc => hupd ⟨hle, hc⟩
          have hlej : rest.getD j' 0 ≤ x := hle'
          omega
        · exact hmax' o' hmem hle

/-- C6 (amended): for every code offset `x` (within `int` range) such that at
least one break location's bytecode offset does not exceed `x`,
`BreakIndexFromCodeOffset` returns the break index of a location whose offset
is at most `x` and is maximal among such offsets (closest from below); when
some location's offset equals `x` exactly, the returned location's offset is
exactly `x`. -/
theorem breakIndexFromCodeOffset_nearest (di : DebugInfo) (x : Nat)
    (hx : x < kMaxInt) (hex : ∃ o ∈ breakOffsetList di, o ≤ x) :
    ∃ j, j < (breakOffsetList di).length ∧
      BreakIndexFromCodeOffset di x = ((j : Nat) : Int) ∧
      (breakOffsetList di).getD j 0 ≤ x ∧
      (∀ o ∈ breakOffsetList di, o ≤ x → o ≤ (breakOffsetList di).getD j 0) ∧
      (x ∈ breakOffsetList di → (breakOffsetList di).getD j 0 = x) := by
  have hne : breakEntries di ≠ [] := by
    intro hnil
    obtain ⟨o, ho, _⟩ := hex
    rw [breakOffsetList, hnil] at ho
    simp at ho
  have hL0 : 0 < (breakEntries di).length := by
    cases hE : breakEntries di with
    | nil => exact absurd hE hne
    | cons a l => simp [hE]
  have h0 : AtLoc di 0 (fromStart di) := atLoc_fromStart di hne
  have hloop := breakIndexFromCodeOffsetLoop_spec di x 0 (fromStart di) 0 kMaxInt h0 hL0
  rw [List.drop_zero] at hloop
  have hex' : ∃ o ∈ breakOffsetList di, o ≤ x ∧ x - o < kMaxInt := by
    obtain ⟨o, ho, hle⟩ := hex
    exact ⟨o, ho, hle, by omega⟩
  obtain ⟨j, hj, hle, hdist, heq, hmax⟩ :=
    codeOffsetFold_update x (breakOffsetList di) 0 0 kMaxInt (by decide) hex'
  refine ⟨j, hj, ?_, hle, hmax, ?_⟩
  · rw [BreakIndexFromCodeOffset, hloop, heq]
    simp
  · intro hxmem
    have h1 := hmax x hxmem (Nat.le_refl x)
    omega

/-- An example function whose single break location (a call) sits at bytecode
offset 2 with source position 5. -/
def exDiOff : DebugInfo :=
  { originalBytecode := [.kOther, .kOther, .kCallOrConstruct]
    debugBytecode := [.kOther, .kOther, .kCallOrConstruct]
    sourcePositionTable := [⟨2, 5, false⟩]
    startPosition := 0 }

/-- Counterexample to C6 as stated: at code offset 1 (inside the code, below
every break location's offset), `BreakIndexFromCodeOffset` returns break
index 0, whose own bytecode offset 2 EXCEEDS the given offset — the returned
location's offset does not satisfy "closest to, and does not exceed". -/
theorem breakIndexFromCodeOffset_counterexample :
    BreakIndexFromCodeOffset exDiOff 1 = 0 ∧
    (breakOffsetList exDiOff).getD ((BreakIndexFromCodeOffset exDiOff 1).toNat) 0 = 2 ∧
    ¬ ((breakOffsetList exDiOff).getD ((BreakIndexFromCodeOffset exDiOff 1).toNat) 0 ≤ 1) := by
  have h1 : BreakIndexFromCodeOffset exDiOff 1 = 0 := by
    have hfs : fromStart exDiOff = ⟨0, [⟨2, 5, false⟩], 5, 0⟩ := by decide
    rw [BreakIndexFromCodeOffset, hfs]
    simp [breakIndexFromCodeOffsetLoop, BreakIterator.Done, BreakIterator.codeOffset,
      next, nextLoop, kMaxInt]
  refine ⟨h1, ?_, ?_⟩
  · rw [h1]; decide
  · rw [h1]; decide

/-- Witness for C6: at code offset 2 of the example function the amended
statement holds with its hypotheses discharged. -/
theorem breakIndexFromCodeOffset_nearest_witness :
    (2 < kMaxInt ∧ ∃ o ∈ breakOffsetList exDiOff, o ≤ 2) ∧
    (∃ j, j < (breakOffsetList exDiOff).length ∧
      BreakIndexFromCodeOffset exDiOff 2 = ((j : Nat) : Int) ∧
      (breakOffsetList exDiOff).getD j 0 ≤ 2 ∧
      (∀ o ∈ breakOffsetList exDiOff, o ≤ 2 → o ≤ (breakOffsetList exDiOff).getD j 0) ∧
      (2 ∈ breakOffsetList exDiOff → (breakOffsetList exDiOff).getD j 0 = 2)) :=
  ⟨⟨by decide, ⟨2, by decide, by decide⟩⟩,
    breakIndexFromCodeOffset_nearest exDiOff 2 (by decide) ⟨2, by decide, by decide⟩⟩

/-- Counterexample to C2 as stated: requesting position 1 in the example
function (whose only instrumentable location has position 0) leaves the
iterator at position 0, which is NOT at least the requested position. -/
theorem skipToPosition_counterexample :
    breakPositionList exDi = [0] ∧
    (SkipToPosition exDi (fromStart exDi) 1).position = 0 ∧
    ¬ (1 ≤ (SkipToPosition exDi (fromStart exDi) 1).position) := by
  have hfs : fromStart exDi = ⟨0, [⟨0, 0, true⟩], 0, 0⟩ := by decide
  have hidx : BreakIndexFromPosition exDi 1 (fromStart exDi) = 0 := by
    rw [hfs]
    simp [BreakIndexFromPosition, breakIndexExactLoop, BreakIterator.Done,
      next, nextLoop]
  have hres : (SkipToPosition exDi (fromStart exDi) 1).position = 0 := by
    rw [SkipToPosition, SkipTo, hidx]
    norm_num [skipToNat, hfs]
  exact ⟨by decide, hres, by rw [hres]; decide⟩

/-- Witness for C2: requesting position 0 in the example function lands
exactly on the location at position 0, with the hypothesis discharged. -/
theorem skipToPosition_nearest_witness :
    (∃ q ∈ breakPositionList exDi, 0 ≤ q) ∧
    (0 ≤ (SkipToPosition exDi (fromStart exDi) 0).position ∧
     (0 ∈ breakPositionList exDi → (SkipToPosition exDi (fromStart exDi) 0).position = 0) ∧
     ((SkipToPosition exDi (fromStart exDi) 0).position = 0 ∨
       ∃ j, j < (breakPositionList exDi).length ∧
         (SkipToPosition exDi (fromStart exDi) 0).position = (breakPositionList exDi).getD j 0 ∧
         ∀ i, i < j → (breakPositionList exDi).getD i 0 < 0)) :=
  ⟨⟨0, by decide, by decide⟩, skipToPosition_nearest exDi 0 ⟨0, by decide, by decide⟩⟩

/-- The stepping granularity requested by the controller (`StepAction`). -/
inductive StepAction where
  | StepNone : StepAction
  | StepOut : StepAction
  | StepOver : StepAction
  | StepInto : StepAction
deriving DecidableEq, Repr

/-- `kNoSourcePosition`. -/
def kNoSourcePosition : Int := -1

/-- A suspended generator object, as far as the stepping engine needs it: the
function it belongs to (read off the object when re-arming stepping). -/
structure GeneratorObj where
  functionId : Nat
deriving DecidableEq, Repr

/-- The per-thread stepping state (`Debug::ThreadLocal`), restricted to the
fields the break/step decision logic reads and writes. -/
structure ThreadLocal where
  lastStepAction : StepAction
  lastStatementPosition : Int
  lastFrameCount : Int
  targetFrameCount : Int
  fastForwardToReturn : Bool
  breakOnNextFunctionCall : Bool
  suspendedGenerator : Option GeneratorObj
  ignoreStepIntoFunction : Option Nat
deriving DecidableEq, Repr

/-- `Debug::ClearStepping`: reset every stepping field (the suspended
generator reference is NOT part of it; `ClearOneShot`'s instrumentation
effect is modelled separately at the debug-info level). -/
def clearStepping (tl : ThreadLocal) : ThreadLocal :=
  { tl with
    lastStepAction := .StepNone
    lastStatementPosition := kNoSourcePosition
    ignoreStepIntoFunction := none
    fastForwardToReturn := false
    lastFrameCount := -1
    targetFrameCount := -1
    breakOnNextFunctionCall := false }

/-- A break location as the stepping engine sees it: its kind and, for
suspend locations, the suspend id decoded from the bytecode operands. -/
structure BreakLocation where
  ltype : DebugBreakType
  generatorSuspendId : Int
deriving DecidableEq, Repr

/-- Modelled from the spec: `BreakLocation::IsReturn` (declared in the debug
header, outside this excerpt) — the location kind is a return slot. -/
def BreakLocation.IsReturn (l : BreakLocation) : Bool :=
  l.ltype = .DEBUG_BREAK_SLOT_AT_RETURN

/-- Modelled from the spec: `BreakLocation::IsSuspend` — the location kind is
a generator-suspend slot. -/
def BreakLocation.IsSuspend (l : BreakLocation) : Bool :=
  l.ltype = .DEBUG_BREAK_SLOT_AT_SUSPEND

/-- Modelled from the spec: `BreakLocation::IsReturnOrSuspend`. -/
def BreakLocation.IsReturnOrSuspend (l : BreakLocation) : Bool :=
  l.IsReturn || l.IsSuspend

/-- Modelled from the spec: `BreakLocation::IsDebugBreakAtEntry` — the
synthetic function-entry break. -/
def BreakLocation.IsDebugBreakAtEntry (l : BreakLocation) : Bool :=
  l.ltype = .DEBUG_BREAK_AT_ENTRY

/-- The inputs `Debug::Break` draws from the isolate and the paused frame:
whether breaking is disabled, whether break info could be ensured for the
break target, the break location found for the frame, whether the paused
function is a generator function, the generator object read off the frame (for
suspend locations), the recomputed inlined-aware frame count, the top frame's
source statement position, and whether some user breakpoint at the location
evaluated true. -/
structure BreakContext where
  breakDisabled : Bool
  hasBreakInfo : Bool
  location : BreakLocation
  isGeneratorFunction : Bool
  frameGenerator : GeneratorObj
  currentFrameCount : Int
  sourceStatementPosition : Int
  breakPointsHit : Bool
deriving DecidableEq, Repr

/-- What `Debug::Break` does on a break arrival: return silently, report a
break to the controller via `OnDebugBreak` (after clearing stepping), or
re-prepare stepping via `PrepareStep` (after clearing stepping). -/
inductive BreakOutcome where
  | ret : BreakOutcome
  | report (lastAction : StepAction) : BreakOutcome
  | reprepare (action : StepAction) : BreakOutcome
deriving DecidableEq, Repr

/-- The shared `StepOver`-fallthrough-`StepInto` block of `Debug::Break`:
enter generator stepping on a suspend location (except the implicit initial
yield, suspend id 0, of a generator function), otherwise break when at a
return, or when the frame count or the statement position changed, and
re-prepare the same step action when no progress was made. -/
def stepOverIntoTail (ctx : BreakContext) (tl : ThreadLocal) :
    BreakOutcome × ThreadLocal :=
  if ctx.location.IsSuspend ∧
      (¬ ctx.isGeneratorFunction ∨ ctx.location.generatorSuspendId > 0) then
    (.ret, clearStepping { tl with suspendedGenerator := some ctx.frameGenerator })
  else
    if ctx.location.IsReturn ∨ ctx.currentFrameCount ≠ tl.lastFrameCount ∨
        tl.lastStatementPosition ≠ ctx.sourceStatementPosition then
      (.report tl.lastStepAction, clearStepping tl)
    else
      (.reprepare tl.lastStepAction, clearStepping tl)

/-- `Debug::Break` (debug.cc): the break-arrival state machine, returning the
action taken and the updated thread-local stepping state. -/
def DebugBreak (ctx : BreakContext) (tl : ThreadLocal) :
    BreakOutcome × ThreadLocal :=
  if ctx.breakDisabled then (.ret, tl)
  else if ¬ ctx.hasBreakInfo then (.ret, tl)
  else if ctx.breakPointsHit || tl.breakOnNextFunctionCall then
    (.report tl.lastStepAction, clearStepping tl)
  else if ctx.location.IsDebugBreakAtEntry then (.ret, tl)
  else if tl.fastForwardToReturn then
    if ctx.currentFrameCount > tl.targetFrameCount then (.ret, tl)
    else (.reprepare .StepOut, clearStepping tl)
  else
    match tl.lastStepAction with
    | .StepNone => (.ret, tl)
    | .StepOut =>
      if ctx.currentFrameCount > tl.targetFrameCount then (.ret, tl)
      else (.report tl.lastStepAction, clearStepping tl)
    | .StepOver =>
      if ctx.currentFrameCount > tl.targetFrameCount then (.ret, tl)
      else stepOverIntoTail ctx tl
    | .StepInto => stepOverIntoTail ctx tl

/-- The guard flags read by `Debug::PrepareStepInSuspendedGenerator`. -/
structure SuspendedGenCtx where
  ignoreEvents : Bool
  inDebugScope : Bool
  breakDisabled : Bool
deriving DecidableEq, Repr

/-- `Debug::PrepareStepInSuspendedGenerator`: under the usual guards, set the
step action to `StepInto`, flood the remembered generator's function with
one-shot breaks (the flooded function is returned), and clear the
suspended-generator reference.  The source asserts a suspended generator is
present; the `none` case is unreachable under that assertion. -/
def PrepareStepInSuspendedGenerator (sctx : SuspendedGenCtx) (tl : ThreadLocal) :
    Option Nat × ThreadLocal :=
  if sctx.ignoreEvents then (none, tl)
  else if sctx.inDebugScope then (none, tl)
  else if sctx.breakDisabled then (none, tl)
  else
    match tl.suspendedGenerator with
    | none => (none, tl)
    | some g =>
      (some g.functionId,
       { tl with lastStepAction := .StepInto, suspendedGenerator := none })

/-- The inputs `Debug::PrepareStep` draws from the paused JavaScript frame:
the break frame id (`none` = no JavaScript stack), whether break info could be
ensured, the current function, its break location, whether it is a generator
function, the blackbox predicate, the top frame's statement position, the
recomputed frame count, and the logical (inlined-aware) frames of the stack
from the current one outward (for the step-out stack walk).  The embedding
covers the JavaScript-frame path of the source (the WebAssembly path is
behind a compile flag and out of scope). -/
structure PrepareStepContext where
  breakFrameId : Option Nat
  ensureBreakInfoOk : Bool
  fn : Nat
  location : BreakLocation
  isGeneratorFunction : Bool
  isBlackboxed : Nat → Bool
  sourceStatementPosition : Int
  currentFrameCount : Int
  callerFrames : List Nat

/-- What `Debug::PrepareStep` does: nothing (no stack / no break info /
unreachable `StepNone`), flood only the return/suspend locations of the
current function (fast-forward-to-return path), flood a caller found by the
stack walk, find no caller to flood, or flood the current function in full. -/
inductive PrepareStepOutcome where
  | noStack : PrepareStepOutcome
  | noBreakInfo : PrepareStepOutcome
  | unreachableNone : PrepareStepOutcome
  | floodReturns (fn : Nat) : PrepareStepOutcome
  | walkFlood (fn : Nat) : PrepareStepOutcome
  | walkNothing : PrepareStepOutcome
  | floodCurrent (fn : Nat) : PrepareStepOutcome
deriving DecidableEq, Repr

/-- The step-out stack walk of `Debug::PrepareStep`: skip the current logical
frame, then skip blackboxed logical frames (the frame count dropping by one
per processed frame), and flood the first non-blackboxed caller, recording its
frame count as the step target. -/
def stepOutWalk (bb : Nat → Bool) : List Nat → Int → Bool → Option (Nat × Int)
  | [], _, _ => none
  | f :: rest, cnt, inCurrent =>
    if inCurrent then stepOutWalk bb rest (cnt - 1) false
    else if bb f then stepOutWalk bb rest (cnt - 1) false
    else some (f, cnt)

/-- `Debug::PrepareStep` (debug.cc), JavaScript-frame path: record the step
action, upgrade a step at a return (or at a suspend, for step-out or the
initial suspend id 0 of a generator) to a step-out, promote a step-over in a
blackboxed function to a step-out, record the statement position and frame
count, and dispatch: for step-out at a non-return/suspend position of a
non-blackboxed function set fast-forward-to-return and flood only the
return/suspend locations; otherwise walk the stack for the first
non-blackboxed caller; for step-over/into flood the current function (step
over additionally records the target frame count). -/
def PrepareStep (ctx : PrepareStepContext) (action : StepAction)
    (tl : ThreadLocal) : PrepareStepOutcome × ThreadLocal :=
  match ctx.breakFrameId with
  | none => (.noStack, tl)
  | some _ =>
    let tl1 := { tl with lastStepAction := action }
    if ¬ ctx.ensureBreakInfoOk then (.noBreakInfo, tl1)
    else
      let upgrade := ctx.location.IsReturn ∨ (ctx.location.IsSuspend ∧
        (action = .StepOut ∨
          (ctx.isGeneratorFunction ∧ ctx.location.generatorSuspendId = 0)))
      let tl2 := if upgrade ∧ action = .StepOut
        then { tl1 with ignoreStepIntoFunction := some ctx.fn } else tl1
      let stepAction1 := if upgrade then StepAction.StepOut else action
      let tl3 := if upgrade then { tl2 with lastStepAction := .StepInto } else tl2
      let stepAction2 := if stepAction1 = .StepOver ∧ ctx.isBlackboxed ctx.fn
        then StepAction.StepOut else stepAction1
      let tl4 := { tl3 with
        lastStatementPosition := ctx.sourceStatementPosition
        lastFrameCount := ctx.currentFrameCount
        suspendedGenerator := none }
      match stepAction2 with
      | .StepNone => (.unreachableNone, tl4)
      | .StepOut =>
        let tl5 := { tl4 with
          lastStatementPosition := kNoSourcePosition
          lastFrameCount := -1 }
        if ¬ ctx.location.IsReturnOrSuspend ∧ ¬ ctx.isBlackboxed ctx.fn then
          (.floodReturns ctx.fn,
           { tl5 with
             targetFrameCount := ctx.currentFrameCount
             fastForwardToReturn := true })
        else
          match stepOutWalk ctx.isBlackboxed ctx.callerFrames
              ctx.currentFrameCount true with
          | some (f, t) => (.walkFlood f, { tl5 with targetFrameCount := t })
          | none => (.walkNothing, tl5)
      | .StepOver =>
        (.floodCurrent ctx.fn, { tl4 with targetFrameCount := ctx.currentFrameCount })
      | .StepInto => (.floodCurrent ctx.fn, tl4)

/-- C1: on a break arrival with no user breakpoint evaluating true and the
break-on-next-call flag unarmed, if the last step action is `StepOver` or
`StepOut` with recorded target frame count `N` and the recomputed current
logical frame count exceeds `N`, then `Debug::Break` returns without
reporting a break to the controller. -/
theorem stepOverOut_never_reports_deeper (ctx : BreakContext) (tl : ThreadLocal)
    (N : Int)
    (hbp : ctx.breakPointsHit = false)
    (hbonfc : tl.breakOnNextFunctionCall = false)
    (hact : tl.lastStepAction = .StepOver ∨ tl.lastStepAction = .StepOut)
    (htgt : tl.targetFrameCount = N)
    (hdeep : N < ctx.currentFrameCount) :
    ∀ a, (DebugBreak ctx tl).1 ≠ BreakOutcome.report a := by
  intro a
  subst htgt
  by_cases h1 : ctx.breakDisabled = true
  · simp [DebugBreak, h1]
  · by_cases h2 : ctx.hasBreakInfo = true
    · by_cases h4 : ctx.location.IsDebugBreakAtEntry = true
      · simp [DebugBreak, h1, h2, h4, hbp, hbonfc]
      · by_cases h6 : tl.fastForwardToReturn = true
        · simp [DebugBreak, h1, h2, h4, h6, hbp, hbonfc, hdeep]
        · rcases hact with hact | hact <;>
            simp [DebugBreak, h1, h2, h4, h6, hbp, hbonfc, hdeep, hact]
    · simp [DebugBreak, h1, h2]

/-- An example break context: a plain statement location at frame depth 3,
breaks enabled, debug info present, no breakpoint hit. -/
def exCtx : BreakContext :=
  { breakDisabled := false
    hasBreakInfo := true
    location := ⟨.DEBUG_BREAK_SLOT, -1⟩
    isGeneratorFunction := false
    frameGenerator := ⟨0⟩
    currentFrameCount := 3
    sourceStatementPosition := 0
    breakPointsHit := false }

/-- An example thread-local stepping state: a step-over with target frame
count 2. -/
def exTl : ThreadLocal :=
  { lastStepAction := .StepOver
    lastStatementPosition := 0
    lastFrameCount := 2
    targetFrameCount := 2
    fastForwardToReturn := false
    breakOnNextFunctionCall := false
    suspendedGenerator := none
    ignoreStepIntoFunction := none }

/-- Witness for C1: a step-over with target depth 2 arriving at depth 3 does
not report. -/
theorem stepOverOut_never_reports_deeper_witness :
    (exCtx.breakPointsHit = false ∧ exTl.breakOnNextFunctionCall = false ∧
     exTl.lastStepAction = .StepOver ∧ exTl.targetFrameCount = 2 ∧
     (2 : Int) < exCtx.currentFrameCount) ∧
    ∀ a, (DebugBreak exCtx exTl).1 ≠ BreakOutcome.report a :=
  ⟨⟨rfl, rfl, rfl, rfl, by decide⟩,
   stepOverOut_never_reports_deeper exCtx exTl 2 rfl rfl (Or.inl rfl) rfl (by decide)⟩

/-- C4: when `Debug::Break` reaches the stepping decision with `StepInto` (or
`StepOver` within the target depth) at a suspend location: if the function is
not a generator function or the suspend id is positive, it stores the
suspended generator, clears all stepping state and returns without reporting;
a suspend with id 0 in a generator function is instead treated as ordinary
code (the generator reference is untouched and the arrival either reports or
re-prepares).  Subsequently `PrepareStepInSuspendedGenerator` sets the step
action to `StepInto`, floods the remembered generator's function, and clears
the suspended-generator reference. -/
theorem generatorStepping_modes (ctx : BreakContext) (tl : ThreadLocal)
    (sctx : SuspendedGenCtx)
    (hdis : ctx.breakDisabled = false) (hinfo : ctx.hasBreakInfo = true)
    (hbp : ctx.breakPointsHit = false) (hbonfc : tl.breakOnNextFunctionCall = false)
    (hentry : ctx.location.IsDebugBreakAtEntry = false)
    (hff : tl.fastForwardToReturn = false)
    (hact : tl.lastStepAction = .StepInto ∨
      (tl.lastStepAction = .StepOver ∧ ¬ ctx.currentFrameCount > tl.targetFrameCount))
    (hsusp : ctx.location.IsSuspend = true) :
    ((¬ ctx.isGeneratorFunction = true ∨ ctx.location.generatorSuspendId > 0) →
       DebugBreak ctx tl =
         (.ret, clearStepping { tl with suspendedGenerator := some ctx.frameGenerator })) ∧
    ((ctx.isGeneratorFunction = true ∧ ctx.location.generatorSuspendId = 0) →
       (DebugBreak ctx tl).2.suspendedGenerator = tl.suspendedGenerator ∧
       (DebugBreak ctx tl = (.report tl.lastStepAction, clearStepping tl) ∨
        DebugBreak ctx tl = (.reprepare tl.lastStepAction, clearStepping tl))) ∧
    (∀ (tl2 : ThreadLocal) (g : GeneratorObj),
       sctx.ignoreEvents = false → sctx.inDebugScope = false →
       sctx.breakDisabled = false → tl2.suspendedGenerator = some g →
       PrepareStepInSuspendedGenerator sctx tl2 =
         (some g.functionId,
          { tl2 with lastStepAction := .StepInto, suspendedGenerator := none })) := by
  have htail : ∀ hgen : (¬ ctx.isGeneratorFunction = true ∨
      ctx.location.generatorSuspendId > 0),
      stepOverIntoTail ctx tl =
        (.ret, clearStepping { tl with suspendedGenerator := some ctx.frameGenerator }) := by
    intro hgen
    rcases hgen with h | h <;> simp [stepOverIntoTail, hsusp, h]
  have htail0 : ctx.isGeneratorFunction = true → ctx.location.generatorSuspendId = 0 →
      stepOverIntoTail ctx tl = (.report tl.lastStepAction, clearStepping tl) ∨
      stepOverIntoTail ctx tl = (.reprepare tl.lastStepAction, clearStepping tl) := by
    intro hg h0
    by_cases hb : ctx.location.IsReturn = true ∨
        ctx.currentFrameCount ≠ tl.lastFrameCount ∨
        tl.lastStatementPosition ≠ ctx.sourceStatementPosition
    · left
      simp [stepOverIntoTail, hsusp, hg, h0, hb]
    · right
      simp [stepOverIntoTail, hsusp, hg, h0, hb]
  have hmain : DebugBreak ctx tl = stepOverIntoTail ctx tl := by
    rcases hact with hact | ⟨hact, hcnt⟩
    · simp [DebugBreak, hdis, hinfo, hbp, hbonfc, hentry, hff, hact]
    · simp [DebugBreak, hdis, hinfo, hbp, hbonfc, hentry, hff, hact, hcnt]
  refine ⟨?_, ?_, ?_⟩
  · intro hgen
    rw [hmain]
    exact htail hgen
  · intro ⟨hg, h0⟩
    rw [hmain]
    rcases htail0 hg h0 with h | h <;>
      simp [h, clearStepping]
  · intro tl2 g hie hids hbd hsg
    simp [PrepareStepInSuspendedGenerator, hie, hids, hbd, hsg]

/-- An example break context paused at a suspend location with suspend id 1
inside a generator function, at depth 2. -/
def exCtxGen : BreakContext :=
  { breakDisabled := false
    hasBreakInfo := true
    location := ⟨.DEBUG_BREAK_SLOT_AT_SUSPEND, 1⟩
    isGeneratorFunction := true
    frameGenerator := ⟨9⟩
    currentFrameCount := 2
    sourceStatementPosition := 0
    breakPointsHit := false }

/-- An example thread-local state stepping into, with no generator stored. -/
def exTlInto : ThreadLocal :=
  { lastStepAction := .StepInto
    lastStatementPosition := 0
    lastFrameCount := 2
    targetFrameCount := -1
    fastForwardToReturn := false
    breakOnNextFunctionCall := false
    suspendedGenerator := none
    ignoreStepIntoFunction := none }

/-- The guard flags of `PrepareStepInSuspendedGenerator`, all clear. -/
def exSctx : SuspendedGenCtx :=
  { ignoreEvents := false, inDebugScope := false, breakDisabled := false }

/-- Witness for C4: stepping into a generator suspend with id 1 stores the
generator, clears stepping, and returns without reporting. -/
theorem generatorStepping_modes_witness :
    DebugBreak exCtxGen exTlInto =
      (.ret, clearStepping { exTlInto with
        suspendedGenerator := some exCtxGen.frameGenerator }) :=
  (generatorStepping_modes exCtxGen exTlInto exSctx rfl rfl rfl rfl rfl rfl
    (Or.inl rfl) rfl).1 (Or.inr (by decide))

/-- C5: `PrepareStep(StepOut)` at a non-return/suspend location of a
non-blackboxed function does not walk the stack: it records the current frame
count as the target, sets the fast-forward-to-return flag, and floods only
the return/suspend locations of the current function.  At the resulting break
(under the fast-forward flag), an arrival deeper than the target is silently
ignored, and an arrival at the target depth or above clears the stepping
state and repeats `PrepareStep(StepOut)` without reporting — so the
function's own return point is processed before any caller-level break. -/
theorem stepOut_fastForward (ctx : PrepareStepContext) (tl : ThreadLocal)
    (fid : Nat)
    (hframe : ctx.breakFrameId = some fid)
    (hok : ctx.ensureBreakInfoOk = true)
    (hnr : ctx.location.IsReturnOrSuspend = false)
    (hbb : ctx.isBlackboxed ctx.fn = false) :
    (PrepareStep ctx .StepOut tl =
      (.floodReturns ctx.fn,
       { tl with
         lastStepAction := .StepOut
         lastStatementPosition := kNoSourcePosition
         lastFrameCount := -1
         suspendedGenerator := none
         targetFrameCount := ctx.currentFrameCount
         fastForwardToReturn := true })) ∧
    (∀ (bctx : BreakContext) (tl' : ThreadLocal),
       tl'.fastForwardToReturn = true →
       bctx.breakDisabled = false → bctx.hasBreakInfo = true →
       bctx.breakPointsHit = false → tl'.breakOnNextFunctionCall = false →
       bctx.location.IsDebugBreakAtEntry = false →
       (bctx.currentFrameCount > tl'.targetFrameCount →
          DebugBreak bctx tl' = (.ret, tl')) ∧
       (¬ bctx.currentFrameCount > tl'.targetFrameCount →
          DebugBreak bctx tl' = (.reprepare .StepOut, clearStepping tl'))) := by
  have hr : ctx.location.IsReturn = false := by
    simp [BreakLocation.IsReturnOrSuspend] at hnr
    exact hnr.1
  have hs : ctx.location.IsSuspend = false := by
    simp [BreakLocation.IsReturnOrSuspend] at hnr
    exact hnr.2
  constructor
  · simp [PrepareStep, hframe, hok, hr, hs, hnr, hbb]
  · intro bctx tl' hff hdis hinfo hbp hbonfc hentry
    constructor
    · intro hdeep
      simp [DebugBreak, hdis, hinfo, hbp, hbonfc, hentry, hff, hdeep]
    · intro hshallow
      simp [DebugBreak, hdis, hinfo, hbp, hbonfc, hentry, hff, hshallow]

/-- An example `PrepareStep` context: a JavaScript frame paused at a plain
statement location of function 7, not blackboxed, at depth 2. -/
def exPctx : PrepareStepContext :=
  { breakFrameId := some 0
    ensureBreakInfoOk := true
    fn := 7
    location := ⟨.DEBUG_BREAK_SLOT, -1⟩
    isGeneratorFunction := false
    isBlackboxed := fun _ => false
    sourceStatementPosition := 4
    currentFrameCount := 2
    callerFrames := [7, 3] }

/-- Witness for C5: the fast-forward path taken at the example context. -/
theorem stepOut_fastForward_witness :
    PrepareStep exPctx .StepOut exTl =
      (.floodReturns exPctx.fn,
       { exTl with
         lastStepAction := .StepOut
         lastStatementPosition := kNoSourcePosition
         lastFrameCount := -1
         suspendedGenerator := none
         targetFrameCount := exPctx.currentFrameCount
         fastForwardToReturn := true }) :=
  (stepOut_fastForward exPctx exTl 0 rfl rfl (by decide) rfl).1

/-- A user breakpoint: its id and its optional condition expression (the
empty string means no condition). -/
structure BreakPoint where
  id : Nat
  condition : String
deriving DecidableEq, Repr

/-- `Debug::CheckBreakPoint` (debug.cc): a breakpoint with an empty condition
always fires; otherwise the condition is evaluated (`WithTopmostArguments`
for entry breaks, `DebugEvaluate::Local` otherwise — both represented by the
`evalCond` oracle returning an optional value plus the resulting
pending-exception flag); when evaluation fails to produce a value, any
pending exception is cleared and the breakpoint does not fire; otherwise the
value's boolean conversion decides.  The pair returned is (fires, pending
exception left on the isolate). -/
def CheckBreakPoint (evalCond : String → Bool → Option Bool × Bool)
    (bp : BreakPoint) (isBreakAtEntry : Bool) (pend0 : Bool) : Bool × Bool :=
  if bp.condition.length = 0 then (true, pend0)
  else
    match evalCond bp.condition isBreakAtEntry with
    | (none, _) => (false, false)
    | (some v, pend) => (v, pend)

/-- C7: a breakpoint with an empty condition always fires; a breakpoint whose
condition evaluation fails clears the pending exception and does not fire —
for firing purposes it behaves exactly like one whose condition evaluates to
false, and the failure is never propagated (the returned pending-exception
flag is clear). -/
theorem checkBreakPoint_condition_semantics
    (evalCond : String → Bool → Option Bool × Bool) (bp : BreakPoint)
    (isBreakAtEntry : Bool) (pend0 : Bool) :
    (bp.condition.length = 0 →
       CheckBreakPoint evalCond bp isBreakAtEntry pend0 = (true, pend0)) ∧
    (∀ pend, bp.condition.length ≠ 0 →
       evalCond bp.condition isBreakAtEntry = (none, pend) →
       CheckBreakPoint evalCond bp isBreakAtEntry pend0 = (false, false)) ∧
    (∀ (bp2 : BreakPoint), bp2.condition.length ≠ 0 →
       evalCond bp2.condition isBreakAtEntry = (some false, false) →
       CheckBreakPoint evalCond bp2 isBreakAtEntry pend0 = (false, false)) := by
  refine ⟨?_, ?_, ?_⟩
  · intro h0
    simp [CheckBreakPoint, h0]
  · intro pend hne hev
    simp [CheckBreakPoint, hne, hev]
  · intro bp2 hne hev
    simp [CheckBreakPoint, hne, hev]

/-- An example condition evaluator: the condition string named here throws
(no value, pending exception left), every other condition evaluates to
false. -/
def exEval : String → Bool → Option Bool × Bool :=
  fun c _ => if c = "throwingCondition" then (none, true) else (some false, false)

/-- Witness for C7: a throwing condition does not fire and leaves no pending
exception, exactly like an ordinary false condition. -/
theorem checkBreakPoint_condition_semantics_witness :
    CheckBreakPoint exEval ⟨1, "throwingCondition"⟩ false false = (false, false) ∧
    CheckBreakPoint exEval ⟨2, "x"⟩ false false = (false, false) ∧
    CheckBreakPoint exEval ⟨3, ""⟩ false false = (true, false) :=
  ⟨(checkBreakPoint_condition_semantics exEval ⟨1, "throwingCondition"⟩ false false).2.1
      true (by decide) (by decide),
   (checkBreakPoint_condition_semantics exEval ⟨2, "x"⟩ false false).2.2
      ⟨2, "x"⟩ (by decide) (by decide),
   (checkBreakPoint_condition_semantics exEval ⟨3, ""⟩ false false).1 (by decide)⟩

/-- The per-function state `Debug::FloodWithOneShot` touches: whether break
info exists, whether the function was prepared for debug execution, and the
bytecode-level debug info record. -/
structure FloodState where
  hasBreakInfo : Bool
  preparedForDebugExecution : Bool
  info : DebugInfo
deriving DecidableEq, Repr

/-- The per-function facts `Debug::EnsureBreakInfo` consults: blackboxing,
`IsSubjectToDebugging`, `CanBreakAtEntry`, compilation state, and whether an
on-demand compile would succeed. -/
structure FloodCtx where
  isBlackboxed : Bool
  subjectToDebugging : Bool
  canBreakAtEntry : Bool
  isCompiled : Bool
  compileOk : Bool
deriving DecidableEq, Repr

/-- `Debug::EnsureBreakInfo` (debug.cc): succeed immediately when break info
exists; fail for functions that are not subject to debugging (unless entry
breaks apply) or that cannot be compiled; otherwise create break info. -/
def EnsureBreakInfo (ctx : FloodCtx) (fs : FloodState) : Bool × FloodState :=
  if fs.hasBreakInfo then (true, fs)
  else if ¬ ctx.subjectToDebugging ∧ ¬ ctx.canBreakAtEntry then (false, fs)
  else if ¬ ctx.isCompiled ∧ ¬ ctx.compileOk then (false, fs)
  else (true, { fs with hasBreakInfo := true })

/-- `Debug::PrepareFunctionForDebugExecution`'s effect on the per-function
flood state: mark the function prepared (its deoptimization and
frame-redirection side effects lie outside this record). -/
def PrepareFunctionForDebugExecutionFS (fs : FloodState) : FloodState :=
  { fs with preparedForDebugExecution := true }

/-- `Debug::FloodWithOneShot` (debug.cc): return immediately for a blackboxed
function; otherwise ensure break info (aborting on failure), prepare the
function for debug execution, and set a debug break at every break location
(or only at return/suspend locations). -/
def FloodWithOneShot (ctx : FloodCtx) (returnsOnly : Bool) (fs : FloodState) :
    FloodState :=
  if ctx.isBlackboxed then fs
  else
    match EnsureBreakInfo ctx fs with
    | (false, fs1) => fs1
    | (true, fs1) =>
      let fs2 := PrepareFunctionForDebugExecutionFS fs1
      { fs2 with info := floodDebugInfo fs2.info returnsOnly }

/-- C10: flooding a blackboxed function is a complete no-op: no break info is
created, the function is not prepared for debug execution, and no debug break
is patched into its bytecode. -/
theorem floodWithOneShot_blackboxed_noop (ctx : FloodCtx) (returnsOnly : Bool)
    (fs : FloodState) (hbb : ctx.isBlackboxed = true) :
    FloodWithOneShot ctx returnsOnly fs = fs := by
  simp [FloodWithOneShot, hbb]

/-- Witness for C10: flooding a blackboxed function with fresh state changes
nothing. -/
theorem floodWithOneShot_blackboxed_noop_witness :
    FloodWithOneShot ⟨true, true, false, true, true⟩ false
      ⟨false, false, exDi⟩ = ⟨false, false, exDi⟩ :=
  floodWithOneShot_blackboxed_noop ⟨true, true, false, true, true⟩ false
    ⟨false, false, exDi⟩ rfl

/-- A `BreakPointInfo`: one distinct source position with its collection of
breakpoints. -/
structure BreakPointInfo where
  sourcePosition : Nat
  breakPoints : List BreakPoint
deriving DecidableEq, Repr

/-- The lifecycle view of a `DebugInfo` record: the function it belongs to,
whether break info is attached, its break point table, whether coverage info
is attached, its debugger hints word, and the script it came from. -/
structure DebugInfoRec where
  fnId : Nat
  hasBreakInfo : Bool
  breakPoints : List BreakPointInfo
  hasCoverageInfo : Bool
  debuggerHints : Nat
  script : Nat
deriving DecidableEq, Repr

/-- Modelled from the spec: `DebugInfo::IsEmpty` (debug-objects, outside this
excerpt) — a record is empty exactly when none of break info, coverage info,
or a debugger hint is attached. -/
def DebugInfoRec.IsEmpty (r : DebugInfoRec) : Bool :=
  ! r.hasBreakInfo && ! r.hasCoverageInfo && r.debuggerHints = 0

/-- Modelled from the spec: `DebugInfo::ClearBreakInfo` — detach the break
info (flag and break point table). -/
def DebugInfoRec.clearBreakInfo (r : DebugInfoRec) : DebugInfoRec :=
  { r with hasBreakInfo := false, breakPoints := [] }

/-- Modelled from the spec: `DebugInfo::FindBreakPointInfo` — whether some
position's collection holds the breakpoint (identified by id). -/
def DebugInfoRec.findBreakPointInfo (r : DebugInfoRec) (bp : BreakPoint) : Bool :=
  r.breakPoints.any (fun info => info.breakPoints.any (fun b => b.id = bp.id))

/-- Modelled from the spec: `DebugInfo::ClearBreakPoint` — remove the
breakpoint from its position's collection, destroying the `BreakPointInfo`
when its last breakpoint is cleared; report whether anything was removed. -/
def DebugInfoRec.clearBreakPoint (r : DebugInfoRec) (bp : BreakPoint) :
    Bool × DebugInfoRec :=
  if r.findBreakPointInfo bp then
    (true,
     { r with
       breakPoints :=
         (r.breakPoints.map (fun info =>
           { info with
             breakPoints := info.breakPoints.filter (fun b => b.id ≠ bp.id) })).filter
           (fun info => ! info.breakPoints.isEmpty) })
  else (false, r)

/-- Modelled from the spec: `DebugInfo::GetBreakPointCount` — the total
number of breakpoints over all positions. -/
def DebugInfoRec.getBreakPointCount (r : DebugInfoRec) : Nat :=
  (r.breakPoints.map (fun info => info.breakPoints.length)).sum

/-- A function's `script_or_debug_info` field: either the direct script
pointer (direct lookup) or an attached debug info. -/
inductive ScriptOrDebug where
  | script (s : Nat) : ScriptOrDebug
  | debugInfoRef : ScriptOrDebug
deriving DecidableEq, Repr

/-- The process-wide debug state the lifecycle operations act on: the list of
live `DebugInfo` records and each function's `script_or_debug_info` field. -/
structure DebugState where
  debugInfoList : List DebugInfoRec
  sfiScriptOrDebug : Nat → ScriptOrDebug

/-- Replace the (first) list node of the given record's function —
`DebugInfo` objects are mutated in place in the source, represented here by
replacing the node. -/
def replaceFirst (r' : DebugInfoRec) : List DebugInfoRec → List DebugInfoRec
  | [] => []
  | r :: rest => if r.fnId = r'.fnId then r' :: rest else r :: replaceFirst r' rest

/-- Remove the (first) list node of the given function —
`Debug::FindDebugInfo` plus the unlink step of `FreeDebugInfoListNode`. -/
def removeFirst (fnId : Nat) : List DebugInfoRec → List DebugInfoRec
  | [] => []
  | r :: rest => if r.fnId = fnId then rest else r :: removeFirst fnId rest

/-- `Debug::FreeDebugInfoListNode` (debug.cc): unlink the node from the
process-wide list and pack the script pointer back into the function's
`script_or_debug_info` field, restoring direct lookup. -/
def freeDebugInfoListNode (st : DebugState) (r : DebugInfoRec) : DebugState :=
  { debugInfoList := removeFirst r.fnId st.debugInfoList
    sfiScriptOrDebug := fun f =>
      if f = r.fnId then .script r.script else st.sfiScriptOrDebug f }

/-- `Debug::RemoveBreakInfoAndMaybeFree` (debug.cc): clear the record's break
info; when the record has thereby become empty, unlink it and restore the
function's script pointer. -/
def RemoveBreakInfoAndMaybeFree (st : DebugState) (r : DebugInfoRec) : DebugState :=
  let r' := r.clearBreakInfo
  let st1 := { st with debugInfoList := replaceFirst r' st.debugInfoList }
  if r'.IsEmpty then freeDebugInfoListNode st1 r' else st1

/-- The loop of `Debug::ClearBreakPoint` (debug.cc): find the record holding
the breakpoint; clear it there; when the record's last breakpoint is gone,
remove its break info (possibly freeing the record), otherwise re-apply the
remaining breakpoints (an instrumentation-level effect) and stop. -/
def clearBreakPointLoop (bp : BreakPoint) (st : DebugState) :
    List DebugInfoRec → DebugState
  | [] => st
  | r :: rest =>
    if r.hasBreakInfo ∧ r.findBreakPointInfo bp then
      match r.clearBreakPoint bp with
      | (found, r') =>
        if found then
          if r'.getBreakPointCount = 0 then
            RemoveBreakInfoAndMaybeFree
              { st with debugInfoList := replaceFirst r' st.debugInfoList } r'
          else { st with debugInfoList := replaceFirst r' st.debugInfoList }
        else clearBreakPointLoop bp st rest
    else clearBreakPointLoop bp st rest

/-- `Debug::ClearBreakPoint`: walk the process-wide debug info list for the
record holding the breakpoint. -/
def ClearBreakPointOp (st : DebugState) (bp : BreakPoint) : DebugState :=
  clearBreakPointLoop bp st st.debugInfoList

/-- Nodes of other functions are passed over by `replaceFirst`. -/
theorem replaceFirst_append (r' : DebugInfoRec) (pre : List DebugInfoRec)
    (r : DebugInfoRec) (post : List DebugInfoRec)
    (hpre : ∀ r2 ∈ pre, r2.fnId ≠ r'.fnId) (hfn : r.fnId = r'.fnId) :
    replaceFirst r' (pre ++ r :: post) = pre ++ r' :: post := by
  induction pre with
  | nil => simp [replaceFirst, hfn]
  | cons a pre ih =>
    have ha : a.fnId ≠ r'.fnId := hpre a (by simp)
    simp only [List.cons_append, replaceFirst, ha, reduceIte]
    rw [List.append_eq, ih (fun r2 h2 => hpre r2 (by simp [h2]))]

/-- Nodes of other functions are passed over by `removeFirst`. -/
theorem removeFirst_append (fnId : Nat) (pre : List DebugInfoRec)
    (r : DebugInfoRec) (post : List DebugInfoRec)
    (hpre : ∀ r2 ∈ pre, r2.fnId ≠ fnId) (hfn : r.fnId = fnId) :
    removeFirst fnId (pre ++ r :: post) = pre ++ post := by
  induction pre with
  | nil => simp [removeFirst, hfn]
  | cons a pre ih =>
    have ha : a.fnId ≠ fnId := hpre a (by simp)
    simp only [List.cons_append, removeFirst, ha, reduceIte]
    rw [List.append_eq, ih (fun r2 h2 => hpre r2 (by simp [h2]))]

/-- Records that do not hold the breakpoint are skipped by the
`ClearBreakPoint` loop. -/
theorem clearBreakPointLoop_skip (bp : BreakPoint) (st : DebugState)
    (pre rest : List DebugInfoRec)
    (hpre : ∀ r2 ∈ pre,
      ¬ (r2.hasBreakInfo = true ∧ r2.findBreakPointInfo bp = true)) :
    clearBreakPointLoop bp st (pre ++ rest) = clearBreakPointLoop bp st rest := by
  induction pre with
  | nil => simp
  | cons a pre ih =>
    have ha := hpre a (by simp)
    simp only [List.cons_append, clearBreakPointLoop, ha, reduceIte]
    exact ih (fun r2 h2 => hpre r2 (by simp [h2]))

/-- C8: clearing the last breakpoint of a function whose `DebugInfo` holds no
coverage info and no debugger hints empties the record, unlinks it from the
process-wide debug info list (no record for that function remains), and
restores the function's script pointer for direct lookup. -/
theorem clearLastBreakPoint_frees_debugInfo (st : DebugState) (bp : BreakPoint)
    (r : DebugInfoRec) (pre post : List DebugInfoRec) (pos : Nat)
    (hsplit : st.debugInfoList = pre ++ r :: post)
    (hpre : ∀ r2 ∈ pre,
      ¬ (r2.hasBreakInfo = true ∧ r2.findBreakPointInfo bp = true))
    (hprefn : ∀ r2 ∈ pre, r2.fnId ≠ r.fnId)
    (hpostfn : ∀ r2 ∈ post, r2.fnId ≠ r.fnId)
    (hbi : r.hasBreakInfo = true)
    (hlast : r.breakPoints = [⟨pos, [bp]⟩])
    (hcov : r.hasCoverageInfo = false)
    (hhints : r.debuggerHints = 0) :
    (ClearBreakPointOp st bp).debugInfoList = pre ++ post ∧
    (∀ r2 ∈ (ClearBreakPointOp st bp).debugInfoList, r2.fnId ≠ r.fnId) ∧
    (ClearBreakPointOp st bp).sfiScriptOrDebug r.fnId = .script r.script ∧
    ((r.clearBreakPoint bp).2.clearBreakInfo).IsEmpty = true ∧
    ((∀ r2 ∈ st.debugInfoList, r2.IsEmpty = false) →
      ∀ r2 ∈ (ClearBreakPointOp st bp).debugInfoList, r2.IsEmpty = false) := by
  have hfind : r.findBreakPointInfo bp = true := by
    simp [DebugInfoRec.findBreakPointInfo, hlast]
  have hclear : r.clearBreakPoint bp = (true, { r with breakPoints := [] }) := by
    simp [DebugInfoRec.clearBreakPoint, DebugInfoRec.findBreakPointInfo, hlast]
  have hcount : ({ r with breakPoints := ([] : List BreakPointInfo)}).getBreakPointCount = 0 := by
    simp [DebugInfoRec.getBreakPointCount]
  have hempty : (({ r with breakPoints := ([] : List BreakPointInfo)}).clearBreakInfo).IsEmpty = true := by
    simp [DebugInfoRec.clearBreakInfo, DebugInfoRec.IsEmpty, hcov, hhints]
  have hfinal : ClearBreakPointOp st bp =
      { debugInfoList := pre ++ post
        sfiScriptOrDebug := fun f =>
          if f = r.fnId then .script r.script else st.sfiScriptOrDebug f } := by
    rw [ClearBreakPointOp, hsplit, clearBreakPointLoop_skip bp st pre _ hpre]
    rw [clearBreakPointLoop]
    rw [if_pos (show r.hasBreakInfo = true ∧ r.findBreakPointInfo bp = true from
      ⟨hbi, hfind⟩)]
    rw [hclear]
    dsimp only
    simp only [reduceIte]
    simp only [hcount, reduceIte]
    rw [RemoveBreakInfoAndMaybeFree]
    simp only [hempty, reduceIte]
    rw [hsplit]
    rw [replaceFirst_append ({ r with breakPoints := [] }) pre r post hprefn rfl]
    rw [replaceFirst_append (({ r with breakPoints := [] } : DebugInfoRec).clearBreakInfo)
      pre ({ r with breakPoints := [] }) post hprefn rfl]
    rw [freeDebugInfoListNode]
    rw [removeFirst_append ((({ r with breakPoints := [] } : DebugInfoRec).clearBreakInfo).fnId)
      pre _ post hprefn rfl]
    simp [DebugInfoRec.clearBreakInfo]
  refine ⟨by rw [hfinal], ?_, by rw [hfinal]; simp, by rw [hclear]; exact hempty, ?_⟩
  · intro r2 h2
    rw [hfinal] at h2
    simp only [List.mem_append] at h2
    rcases h2 with h2 | h2
    · exact hprefn r2 h2
    · exact hpostfn r2 h2
  · intro hne r2 h2
    rw [hfinal] at h2
    refine hne r2 ?_
    rw [hsplit]
    simp only [List.mem_append, List.mem_cons] at h2 ⊢
    tauto

/-- An example record: function 5 with a single breakpoint at position 10, no
coverage info, no debugger hints, script 42. -/
def exRec : DebugInfoRec :=
  { fnId := 5
    hasBreakInfo := true
    breakPoints := [⟨10, [⟨1, ""⟩]⟩]
    hasCoverageInfo := false
    debuggerHints := 0
    script := 42 }

/-- An example debug state holding only the example record, with the
function's script-or-debug-info field pointing at the debug info. -/
def exSt : DebugState :=
  { debugInfoList := [exRec]
    sfiScriptOrDebug := fun _ => .debugInfoRef }

/-- Witness for C8: clearing the only breakpoint of function 5 empties the
process-wide list and restores the script pointer. -/
theorem clearLastBreakPoint_frees_debugInfo_witness :
    (ClearBreakPointOp exSt ⟨1, ""⟩).debugInfoList = [] ∧
    (ClearBreakPointOp exSt ⟨1, ""⟩).sfiScriptOrDebug 5 = ScriptOrDebug.script 42 := by
  have h := clearLastBreakPoint_frees_debugInfo exSt ⟨1, ""⟩ exRec [] [] 10 rfl
    (by simp) (by simp) (by simp) rfl rfl rfl rfl
  exact ⟨by simpa using h.1, h.2.2.1⟩

/-- One debug scope as recorded on the thread: the break-frame id saved at
entry (`break_frame_id_`) and the terminate-on-resume flag. -/
structure ScopeRec where
  savedBreakFrameId : Option Nat
  terminateOnResume : Bool
deriving DecidableEq, Repr

/-- The thread state the debug scopes act on: the chain of linked scopes
(head = `current_debug_scope_`, empty = null), the thread's current
break-frame id (`none` = `NO_ID`), and whether a terminate-execution request
has been raised on the stack guard. -/
structure DebugThreadState where
  scopes : List ScopeRec
  breakFrameId : Option Nat
  terminateRequested : Bool
deriving DecidableEq, Repr

/-- `DebugScope::DebugScope` (debug.cc): link a new scope as the current one,
saving the previous break-frame id in it, and set the thread's break-frame id
from the stack (`newFrameId`; `none` when there are no frames). -/
def enterScope (newFrameId : Option Nat) (st : DebugThreadState) : DebugThreadState :=
  { scopes := ⟨st.breakFrameId, false⟩ :: st.scopes
    breakFrameId := newFrameId
    terminateRequested := st.terminateRequested }

/-- `DebugScope::set_terminate_on_resume`: mark the current scope. -/
def setTerminateOnResume (st : DebugThreadState) : DebugThreadState :=
  match st.scopes with
  | [] => st
  | sc :: rest => { st with scopes := { sc with terminateOnResume := true } :: rest }

/-- `DebugScope::~DebugScope` (debug.cc): when terminate-on-resume is set,
raise a terminate-execution request if this is the outermost scope and
propagate the flag to the enclosing scope otherwise; then unlink the scope
and restore the saved break-frame id. -/
def exitScope (st : DebugThreadState) : DebugThreadState :=
  match st.scopes with
  | [] => st
  | sc :: rest =>
    if sc.terminateOnResume then
      match rest with
      | [] =>
        { scopes := []
          breakFrameId := sc.savedBreakFrameId
          terminateRequested := true }
      | sc2 :: r2 =>
        { scopes := { sc2 with terminateOnResume := true } :: r2
          breakFrameId := sc.savedBreakFrameId
          terminateRequested := st.terminateRequested }
    else
      { scopes := rest
        breakFrameId := sc.savedBreakFrameId
        terminateRequested := st.terminateRequested }

/-- A balanced nesting of debug scopes: each node enters a scope, runs its
children inside it, optionally sets terminate-on-resume on its own scope, and
exits. -/
inductive ScopeTree where
  | node (frameId : Option Nat) (body : List ScopeTree) (setTerm : Bool) : ScopeTree

mutual
/-- Run one balanced scope: enter, run the nested scopes, optionally set
terminate-on-resume, exit. -/
def runTree (st : DebugThreadState) : ScopeTree → DebugThreadState
  | .node fid body term =>
    let st1 := enterScope fid st
    let st2 := runTrees st1 body
    let st3 := if term then setTerminateOnResume st2 else st2
    exitScope st3

/-- Run a sequence of balanced scopes. -/
def runTrees (st : DebugThreadState) : List ScopeTree → DebugThreadState
  | [] => st
  | t :: ts => runTrees (runTree st t) ts
end

mutual
/-- Whether a balanced scope or one of its descendants sets
terminate-on-resume. -/
def treeHasTerm : ScopeTree → Bool
  | .node _ body term => term || treesHaveTerm body

/-- Whether any scope in a sequence (or a descendant) sets
terminate-on-resume. -/
def treesHaveTerm : List ScopeTree → Bool
  | [] => false
  | t :: ts => treeHasTerm t || treesHaveTerm ts
end

mutual
/-- Restoration discipline for one balanced scope: the break-frame id and the
scope chain (with all its saved ids) are restored on exit; terminate-on-resume
set anywhere inside propagates to the enclosing scope when one exists, and
raises the terminate-execution request exactly when the outermost scope
unwinds. -/
theorem runTree_restore (t : ScopeTree) (st : DebugThreadState) :
    (runTree st t).breakFrameId = st.breakFrameId ∧
    (st.scopes = [] → (runTree st t).scopes = [] ∧
      (runTree st t).terminateRequested =
        (st.terminateRequested || treeHasTerm t)) ∧
    (∀ sc rest, st.scopes = sc :: rest →
      (runTree st t).scopes =
        { sc with terminateOnResume := (sc.terminateOnResume || treeHasTerm t) } :: rest ∧
      (runTree st t).terminateRequested = st.terminateRequested) := by
  match t with
  | .node fid body term =>
    obtain ⟨hb, _, hcons⟩ := runTrees_restore body (enterScope fid st)
    have hsc := hcons ⟨st.breakFrameId, false⟩ st.scopes rfl
    have hst2 : runTrees (enterScope fid st) body =
        ⟨⟨st.breakFrameId, treesHaveTerm body⟩ :: st.scopes, fid,
          st.terminateRequested⟩ := by
      have e0 : runTrees (enterScope fid st) body =
          ⟨(runTrees (enterScope fid st) body).scopes,
           (runTrees (enterScope fid st) body).breakFrameId,
           (runTrees (enterScope fid st) body).terminateRequested⟩ := rfl
      rw [e0, hb, hsc.1, hsc.2]
      simp [enterScope]
    have hst3 : (if term then
          setTerminateOnResume (runTrees (enterScope fid st) body)
        else runTrees (enterScope fid st) body) =
        ⟨⟨st.breakFrameId, term || treesHaveTerm body⟩ :: st.scopes, fid,
          st.terminateRequested⟩ := by
      cases term
      · simp [hst2]
      · simp [hst2, setTerminateOnResume]
    have hrun : runTree st (.node fid body term) =
        exitScope ⟨⟨st.breakFrameId, term || treesHaveTerm body⟩ :: st.scopes,
          fid, st.terminateRequested⟩ := by
      rw [runTree]
      rw [hst3]
    have hT : treeHasTerm (.node fid body term) = (term || treesHaveTerm body) := by
      rw [treeHasTerm]
    refine ⟨?_, ?_, ?_⟩
    · rw [hrun]
      cases hflag : (term || treesHaveTerm body) <;>
        cases hrest : st.scopes <;> simp [exitScope, hflag]
    · intro hnil
      rw [hnil] at hrun
      rw [hrun, hT]
      cases hflag : (term || treesHaveTerm body) <;> simp [exitScope, hflag]
    · intro sc rest hsplit
      rw [hsplit] at hrun
      rw [hrun, hT]
      cases hflag : (term || treesHaveTerm body) <;> simp [exitScope, hflag]

/-- Restoration discipline for a sequence of balanced scopes. -/
theorem runTrees_restore (ts : List ScopeTree) (st : DebugThreadState) :
    (runTrees st ts).breakFrameId = st.breakFrameId ∧
    (st.scopes = [] → (runTrees st ts).scopes = [] ∧
      (runTrees st ts).terminateRequested =
        (st.terminateRequested || treesHaveTerm ts)) ∧
    (∀ sc rest, st.scopes = sc :: rest →
      (runTrees st ts).scopes =
        { sc with terminateOnResume := (sc.terminateOnResume || treesHaveTerm ts) } :: rest ∧
      (runTrees st ts).terminateRequested = st.terminateRequested) := by
  match ts with
  | [] =>
    refine ⟨rfl, fun h => ⟨h, by simp [treesHaveTerm, runTrees]⟩, ?_⟩
    intro sc rest hsplit
    simp [runTrees, treesHaveTerm, hsplit]
  | t :: ts' =>
    obtain ⟨hb1, hnil1, hcons1⟩ := runTree_restore t st
    obtain ⟨hb2, hnil2, hcons2⟩ := runTrees_restore ts' (runTree st t)
    have hrun : runTrees st (t :: ts') = runTrees (runTree st t) ts' := by
      rw [runTrees]
    have hTT : treesHaveTerm (t :: ts') = (treeHasTerm t || treesHaveTerm ts') := by
      rw [treesHaveTerm]
    refine ⟨?_, ?_, ?_⟩
    · rw [hrun, hb2, hb1]
    · intro hnil
      obtain ⟨hs1, ht1⟩ := hnil1 hnil
      obtain ⟨hs2, ht2⟩ := hnil2 hs1
      rw [hrun, hTT]
      exact ⟨hs2, by rw [ht2, ht1, Bool.or_assoc]⟩
    · intro sc rest hsplit
      obtain ⟨hs1, ht1⟩ := hcons1 sc rest hsplit
      obtain ⟨hs2, ht2⟩ := hcons2 _ rest hs1
      rw [hrun, hTT]
      constructor
      · rw [hs2]
        simp [Bool.or_assoc]
      · rw [ht2, ht1]
end

/-- C9: for every balanced nesting of debug scopes run on any thread state,
the unwind restores the thread's break-frame id and its scope chain (every
saved break-frame id) to their entry values regardless of nesting depth;
terminate-on-resume set on any inner scope propagates to the enclosing scope
when one exists (the terminate-execution request is NOT raised then), and the
request is raised exactly when the outermost scope unwinds with the flag
set. -/
theorem debugScope_restore_and_terminate (t : ScopeTree) (st : DebugThreadState) :
    (runTree st t).breakFrameId = st.breakFrameId ∧
    ((runTree st t).scopes.map ScopeRec.savedBreakFrameId =
      st.scopes.map ScopeRec.savedBreakFrameId) ∧
    (st.scopes = [] →
      (runTree st t).terminateRequested =
        (st.terminateRequested || treeHasTerm t)) ∧
    (∀ sc rest, st.scopes = sc :: rest →
      (runTree st t).terminateRequested = st.terminateRequested ∧
      (runTree st t).scopes =
        { sc with terminateOnResume := (sc.terminateOnResume || treeHasTerm t) } :: rest) := by
  obtain ⟨hb, hnil, hcons⟩ := runTree_restore t st
  refine ⟨hb, ?_, fun h => (hnil h).2, fun sc rest h => ⟨(hcons sc rest h).2, (hcons sc rest h).1⟩⟩
  cases hsp : st.scopes with
  | nil => rw [(hnil hsp).1]
  | cons sc rest => rw [(hcons sc rest hsp).1]; simp

/-- Witness for C9: a two-deep nesting whose inner scope requests termination
restores the break-frame id and raises the request only when the outer scope
unwinds. -/
theorem debugScope_restore_and_terminate_witness :
    (runTree ⟨[], none, false⟩
        (.node (some 1) [.node (some 2) [] true] false)).breakFrameId = none ∧
    (runTree ⟨[], none, false⟩
        (.node (some 1) [.node (some 2) [] true] false)).terminateRequested =
      (false || treeHasTerm (.node (some 1) [.node (some 2) [] true] false)) :=
  ⟨(debugScope_restore_and_terminate
      (.node (some 1) [.node (some 2) [] true] false) ⟨[], none, false⟩).1,
   (debugScope_restore_and_terminate
      (.node (some 1) [.node (some 2) [] true] false) ⟨[], none, false⟩).2.2.1 rfl⟩

end V8
